import Mathlib

/-!
Shallow embedding of the lleaves model-file parser and forest builder
(`lleaves/tree_compiler/ast/parser.py` and `lleaves/tree_compiler/parser/ast.py`).

A model file is modelled as its character content (`List Char`); this matches the
source byte-for-byte for the ASCII files exercised here.  Python lists become
`List`, dictionaries become association lists, raised exceptions become
`Except Err`, and the file-object cursor of the forward pass becomes explicit
recursion over the remaining lines.  Object references in the built tree graph
(Python `Node`/`Leaf` objects wired by mutation) are represented by positions
into the per-tree node and leaf arrays.

The `Forest`/`Tree`/`Node`/`Leaf` classes live in `lleaves.tree_compiler.frontend`,
which is not part of the sources; their fields and the `validate` method are
modelled from the spec (marked below), while everything the builder does to them
(`parse_to_forest`) is translated from the source.
-/

set_option autoImplicit false
set_option maxRecDepth 8000

namespace Lleaves

/-- Errors.  Python raises `AssertionError` / `IndexError` / `TypeError` /
`ValueError`; the model keeps one constructor per distinct raise site kind so
that theorems can tell failure modes apart.  `fuelExhausted` is produced only
by the fuelled backward scan and models non-termination of its `while True`
loop. -/
inductive Err where
  /-- Source: `assert lines[0] == "tree" and lines[1].startswith("version=")` failed. -/
  | notModelFile
  /-- a Python list subscript was out of range (`IndexError`). -/
  | indexError
  /-- Source: `assert lines[0] == "end of trees"` failed on a block first line. -/
  | badBlockStart
  /-- Source: `key, value = line.split("=")` did not produce exactly two parts. -/
  | lineSplit
  /-- Source: `int(x)` / `float(x)` coercion failed on a token. -/
  | coerceFailed
  /-- Source: `assert value.null_ok` failed: a non-nullable key was absent. -/
  | missingKey
  /-- a struct field had an unexpected shape when read back (unreachable for
  schema-decoded structs; models a `KeyError`/`TypeError` on dict access). -/
  | fieldMismatch
  /-- Source: `raise ValueError("Ill formatted model file!")` in the pandas scan. -/
  | illFormatted
  /-- the fuelled model of `parse_pandas_categorical`'s unbounded loop ran out
  of fuel: the Python loop would not have terminated within that budget. -/
  | fuelExhausted
  /-- Source: `assert len(nodes) == n_nodes` failed in `parse_to_forest`. -/
  | nodeLenMismatch
  /-- Source: `assert len(categorical_nodes) == n_cat` failed in `parse_to_forest`. -/
  | catCountMismatch
  /-- Source: `tree_struct["cat_threshold"][i]` subscripted `None` (`TypeError`). -/
  | noneSubscript
  /-- Source: `node.validate()` failed. -/
  | validationError
  /-- Source: `nodes[0]` was taken on an empty node list (`IndexError`). -/
  | rootIndexError
  deriving Repr, DecidableEq

/-! ## String primitives

The Lean core `String` functions (`splitOn`, `startsWith`, `trim`, `toInt?`)
are implemented by recursion on byte positions, which the kernel cannot
evaluate; the model re-implements the few Python string operations the source
uses as structural recursion over the character list, so that every theorem
about a concrete file can be checked by evaluation. -/

/-- Split a character list at every occurrence of `sep` (Python
`str.split(sep)` for a one-character separator: `n` separators yield `n + 1`
parts, empty parts included). -/
def splitOnChar (sep : Char) : List Char → List (List Char)
  | [] => [[]]
  | c :: rest =>
    if c = sep then [] :: splitOnChar sep rest
    else match splitOnChar sep rest with
      | [] => [[c]]
      | l :: ls => (c :: l) :: ls

/-- Python `line.split(sep)` for the one-character separators the source uses
(`"="` and `" "`). -/
def strSplitOn (s : String) (sep : Char) : List String :=
  (splitOnChar sep s.data).map String.mk

/-- Python `s.startswith(pre)`. -/
def leadsWithL : List Char → List Char → Bool
  | [], _ => true
  | _ :: _, [] => false
  | p :: ps, c :: cs => p = c && leadsWithL ps cs

def leadsWith (pre s : String) : Bool :=
  leadsWithL pre.data s.data

/-- The characters Python `str.strip()` removes. -/
def isPySpace (c : Char) : Bool :=
  c == ' ' || c == '\t' || c == '\n' || c == '\r' || c == '\x0b' || c == '\x0c'

/-- Python `s.strip()`. -/
def strTrim (s : String) : String :=
  String.mk (((s.data.dropWhile isPySpace).reverse.dropWhile isPySpace).reverse)

/-- The numeric value of a non-empty all-digit character list. -/
def digitsVal : List Char → Option Nat
  | [] => none
  | l => if l.all Char.isDigit then
      some (l.foldl (fun acc c => acc * 10 + (c.toNat - '0'.toNat)) 0)
    else none

/-- Python `int(s)` (optional sign followed by decimal digits; surrounding
whitespace and underscore separators, which never occur in model files, are
not accepted). -/
def strToInt : String → Option Int
  | s =>
    match s.data with
    | '+' :: r => (digitsVal r).map Int.ofNat
    | '-' :: r => (digitsVal r).map (fun n => -(n : Int))
    | r => (digitsVal r).map Int.ofNat

/-- Python `s[n:]`. -/
def strDrop (s : String) (n : Nat) : String :=
  String.mk (s.data.drop n)

/-! ## Lines of a file

`splitLines` splits character content on `'\n'` exactly like repeated
`f.readline()` does, except that the line terminators are dropped: element `i`
is the `i`-th line without its `'\n'`, and a final element `""` appears exactly
when the content ends in `'\n'` (where `readline` would next return `""`/EOF).
-/

def splitLines (cs : List Char) : List (List Char) :=
  splitOnChar '\n' cs

/-- The lines seen by the forward pass (`f.readline()` loop), as `String`s with
terminators dropped; end of list plays the role of EOF, and the element `""`
is a blank line (Python's `line == "\n"` test). -/
def fileLines (cs : List Char) : List String :=
  (splitLines cs).map (fun l => String.mk l)

/-- The lines returned by Python `f.readlines()` on content `cs`: like
`fileLines` but a trailing `""` artifact (content ending in `'\n'`, or empty
content) is not a line of its own. -/
def pyLines (cs : List Char) : List String :=
  let p := fileLines cs
  if p.getLast? = some "" then p.dropLast else p

/-! ## `_get_next_block_of_lines` -/

/-- Source: `_get_next_block_of_lines`: skip blank lines, then collect (stripped)
lines until a blank line or EOF.  Returns the block together with the lines
remaining after it (the terminating blank line is left in the remainder; the
next call skips it, so the behaviour matches the file cursor having consumed
it). -/
def getNextBlock (ls : List String) : List String × List String :=
  let s1 := ls.dropWhile (· == "")
  ((s1.takeWhile (· ≠ "")).map strTrim, s1.dropWhile (· ≠ ""))

/-! ## `parse_pandas_categorical`

The backward scan: starting at offset `-19` (`-len("pandas_categorical:")`)
from the end of the file, read the suffix at that offset, and double the
offset until at least two lines are recovered.  The Python loop is `while
True`; the model is fuelled, with `none` meaning the loop performed more
iterations than the given fuel. -/

/-- The suffix that `f.seek(off, SEEK_END); f.readlines()` reads, for
`off ≤ 0`: the last `-off` characters (all of `cs` when `-off` exceeds the
size). -/
def tailChunk (cs : List Char) (off : Int) : List Char :=
  cs.drop (cs.length - off.natAbs)

/-- One clamp of the offset: `if offset < max_offset: offset = max_offset`
with `max_offset = -len(file)`. -/
def clampOff (cs : List Char) (off : Int) : Int :=
  if off < -(cs.length : Int) then -(cs.length : Int) else off

/-- The scan loop of `parse_pandas_categorical`, fuelled. -/
def scanFuel (cs : List Char) : Nat → Int → Option (List String)
  | 0, _ => none
  | fuel + 1, off =>
    let off := clampOff cs off
    let ls := pyLines (tailChunk cs off)
    if 2 ≤ ls.length then some ls else scanFuel cs fuel (off * 2)

def pandasKey : String := "pandas_categorical:"

/-- The lines recovered by the backward scan.  The fuel `cs.length + 2` is
proven sufficient whenever the loop terminates at all
(`scanFuel_isSome_of_two_lines` below). -/
def recoveredLines (cs : List Char) : Option (List String) :=
  scanFuel cs (cs.length + 2) (-(pandasKey.length : Int))

/-- The scan loop, started as `parse_pandas_categorical` starts it, exhausts
every fuel bound: the Python `while True` loop never exits. -/
def scanDiverges (cs : List Char) : Prop :=
  ∀ fuel : Nat, scanFuel cs fuel (-(pandasKey.length : Int)) = none

/-- Source: `parse_pandas_categorical`.  On success it returns the text after the
`"pandas_categorical:"` marker; the `json.loads` applied to that text by the
source is Python standard-library code outside this repository and is not
modelled (no claim depends on JSON well-formedness). -/
def parsePandasCategorical (cs : List Char) : Except Err String :=
  match recoveredLines cs with
  | none => .error .fuelExhausted
  | some ls =>
    match ls.reverse with
    | l1 :: l2 :: _ =>
      let lastLine := strTrim l1
      let lastLine := if leadsWith pandasKey lastLine then lastLine else strTrim l2
      if leadsWith pandasKey lastLine then
        .ok (strDrop lastLine pandasKey.length)
      else .error .illFormatted
    | _ => .error .indexError

/-! ## `_struct_from_block` and the declared schemas -/

/-- The scalar types a schema can declare (`int`, `float`, `str`). -/
inductive VType where
  | int
  | float
  | str
  deriving Repr, DecidableEq

/-- Source: `ParsedValue(type, is_list=False, null_ok=False)`. -/
structure ParsedValue where
  type : VType
  is_list : Bool := false
  null_ok : Bool := false
  deriving Repr, DecidableEq

/-- A decoded value.  Python floats are kept as their source tokens: no claim
performs floating-point arithmetic, values are only stored and moved, so the
token is a faithful (injective) stand-in for the parsed `float`. -/
inductive PValue where
  | vInt (i : Int)
  | vFloat (tok : String)
  | vStr (s : String)
  | vIntList (l : List Int)
  | vFloatList (l : List String)
  | vStrList (l : List String)
  | vNull
  deriving Repr, DecidableEq

/-- Source: `INPUT_PARSED_KEYS`. -/
def INPUT_PARSED_KEYS : List (String × ParsedValue) :=
  [("max_feature_idx", ⟨.int, false, false⟩),
   ("version", ⟨.str, false, false⟩),
   ("feature_infos", ⟨.str, true, false⟩),
   ("objective", ⟨.str, true, false⟩)]

/-- Source: `TREE_PARSED_KEYS`. -/
def TREE_PARSED_KEYS : List (String × ParsedValue) :=
  [("Tree", ⟨.int, false, false⟩),
   ("num_leaves", ⟨.int, false, false⟩),
   ("num_cat", ⟨.int, false, false⟩),
   ("split_feature", ⟨.int, true, false⟩),
   ("threshold", ⟨.float, true, false⟩),
   ("decision_type", ⟨.int, true, false⟩),
   ("left_child", ⟨.int, true, false⟩),
   ("right_child", ⟨.int, true, false⟩),
   ("leaf_value", ⟨.float, true, false⟩),
   ("cat_threshold", ⟨.int, true, true⟩),
   ("cat_boundaries", ⟨.int, true, true⟩)]

/-- Acceptance test for a token passed to Python `float()`:
`[+-]? (digits [. digits*] | . digits) [eE [+-]? digits]`.  This approximates
the CPython grammar on the tokens that occur in model files; `inf`/`nan`
spellings are not accepted, so accepted tokens always denote finite values. -/
def isFloatTok (s : String) : Bool :=
  let afterSign := fun (l : List Char) =>
    match l with
    | '+' :: r => r
    | '-' :: r => r
    | r => r
  let digits := fun (l : List Char) => !l.isEmpty && l.all Char.isDigit
  let mantissa := fun (l : List Char) =>
    match splitOnChar '.' l with
    | [d] => digits d
    | [d, f] => (digits d && (f.isEmpty || digits f)) || (d.isEmpty && digits f)
    | _ => false
  let body := afterSign s.data
  match splitOnChar 'e' body with
  | [_] =>
    match splitOnChar 'E' body with
    | [m1] => mantissa m1
    | [m1, ex] => mantissa m1 && digits (afterSign ex)
    | _ => false
  | [m, ex] => mantissa m && digits (afterSign ex)
  | _ => false

/-- Left-to-right effectful map: models a Python loop/comprehension in which
the first raised exception aborts the whole call. -/
def mapE {α β : Type} (f : α → Except Err β) : List α → Except Err (List β)
  | [] => .ok []
  | x :: xs => do
    let y ← f x
    let ys ← mapE f xs
    .ok (y :: ys)

/-- One token through the declared scalar coercion (`value_type.type(x)`).
`String.toInt?` approximates Python `int()` (optional sign, decimal digits);
float tokens are validated and kept verbatim. -/
def coerceTok (vt : VType) (tok : String) : Except Err PValue :=
  match vt with
  | .int =>
    match strToInt tok with
    | some i => .ok (.vInt i)
    | none => .error .coerceFailed
  | .float => if isFloatTok tok then .ok (.vFloat tok) else .error .coerceFailed
  | .str => .ok (.vStr tok)

/-- Coerce a whole `key=value` right-hand side against its descriptor:
list fields split the value on single spaces (`value.split(" ")`) and
coerce each token; an empty value is the empty list. -/
def coerceValue (pv : ParsedValue) (value : String) : Except Err PValue :=
  if pv.is_list then
    if value = "" then
      .ok (match pv.type with
        | .int => .vIntList []
        | .float => .vFloatList []
        | .str => .vStrList [])
    else do
      let toks := strSplitOn value ' '
      match pv.type with
      | .int => do
        let l ← mapE (fun t =>
          match strToInt t with
          | some i => Except.ok i
          | none => Except.error Err.coerceFailed) toks
        .ok (.vIntList l)
      | .float =>
        if toks.all isFloatTok then .ok (.vFloatList toks) else .error .coerceFailed
      | .str => .ok (.vStrList toks)
  else coerceTok pv.type value

/-- Association-list lookup (`key in dict` / `dict[key]`). -/
def alookup {α : Type} (st : List (String × α)) (k : String) : Option α :=
  match st.find? (fun p => p.1 == k) with
  | some p => some p.2
  | none => none

/-- Source: `struct[key] = value`: overwrite if present, append otherwise. -/
def dinsert (st : List (String × PValue)) (k : String) (v : PValue) :
    List (String × PValue) :=
  if st.any (fun p => p.1 == k) then
    st.map (fun p => if p.1 == k then (k, v) else p)
  else st ++ [(k, v)]

/-- The line loop of `_struct_from_block`. -/
def structLines (schema : List (String × ParsedValue)) :
    List (String × PValue) → List String → Except Err (List (String × PValue))
  | st, [] => .ok st
  | st, l :: rest =>
    if l = "tree" then structLines schema st rest
    else
      match strSplitOn l '=' with
      | [k, v] =>
        match alookup schema k with
        | none => structLines schema st rest
        | some pv =>
          match coerceValue pv v with
          | .error e => .error e
          | .ok val => structLines schema (dinsert st k val) rest
      | _ => .error .lineSplit

/-- The missing-keys pass of `_struct_from_block`: every schema key absent
from the struct must be nullable (`assert value.null_ok`) and is set to
`None`.  (Python iterates a set difference in unspecified order; the model
iterates in schema order, which only affects which missing key is reported
first.) -/
def structMissing (st : List (String × PValue)) :
    List (String × ParsedValue) → Except Err (List (String × PValue))
  | [] => .ok st
  | (k, pv) :: rest =>
    match alookup st k with
    | some _ => structMissing st rest
    | none =>
      if pv.null_ok then structMissing (dinsert st k .vNull) rest
      else .error .missingKey

/-- Source: `_struct_from_block(lines, keys_to_parse)`. -/
def structFromBlock (lines : List String) (schema : List (String × ParsedValue)) :
    Except Err (List (String × PValue)) := do
  let st ← structLines schema [] lines
  structMissing st schema

/-! ## Typed views of the decoded structs

The source keeps the decoded blocks as dictionaries and subscripts them later
(`parsed_model["general_info"]["max_feature_idx"]`, `tree_struct["num_cat"]`,
…).  The model extracts the fields into records right after decoding; for a
schema-decoded struct every lookup below succeeds with the declared variant,
so the `fieldMismatch` branches are unreachable on the source's actual access
paths. -/

structure GeneralInfo where
  max_feature_idx : Int
  version : String
  feature_infos : List String
  objective : List String
  deriving Repr, DecidableEq

/-- The raw per-tree record (`ParsedTreeRecord`). -/
structure TreeStruct where
  tree : Int
  num_leaves : Int
  num_cat : Int
  split_feature : List Int
  threshold : List String
  decision_type : List Int
  left_child : List Int
  right_child : List Int
  leaf_value : List String
  cat_threshold : Option (List Int)
  cat_boundaries : Option (List Int)
  deriving Repr, DecidableEq

def getInt (st : List (String × PValue)) (k : String) : Except Err Int :=
  match alookup st k with
  | some (.vInt i) => .ok i
  | _ => .error .fieldMismatch

def getStr (st : List (String × PValue)) (k : String) : Except Err String :=
  match alookup st k with
  | some (.vStr s) => .ok s
  | _ => .error .fieldMismatch

def getStrList (st : List (String × PValue)) (k : String) : Except Err (List String) :=
  match alookup st k with
  | some (.vStrList l) => .ok l
  | _ => .error .fieldMismatch

def getIntList (st : List (String × PValue)) (k : String) : Except Err (List Int) :=
  match alookup st k with
  | some (.vIntList l) => .ok l
  | _ => .error .fieldMismatch

def getFloatList (st : List (String × PValue)) (k : String) : Except Err (List String) :=
  match alookup st k with
  | some (.vFloatList l) => .ok l
  | _ => .error .fieldMismatch

/-- A nullable int-list field: `None` or the list. -/
def getIntListOpt (st : List (String × PValue)) (k : String) :
    Except Err (Option (List Int)) :=
  match alookup st k with
  | some (.vIntList l) => .ok (some l)
  | some .vNull => .ok none
  | _ => .error .fieldMismatch

def GeneralInfo.ofStruct (st : List (String × PValue)) : Except Err GeneralInfo := do
  let mfi ← getInt st "max_feature_idx"
  let v ← getStr st "version"
  let fi ← getStrList st "feature_infos"
  let ob ← getStrList st "objective"
  .ok ⟨mfi, v, fi, ob⟩

def TreeStruct.ofStruct (st : List (String × PValue)) : Except Err TreeStruct := do
  let tr ← getInt st "Tree"
  let nl ← getInt st "num_leaves"
  let nc ← getInt st "num_cat"
  let sf ← getIntList st "split_feature"
  let th ← getFloatList st "threshold"
  let dt ← getIntList st "decision_type"
  let lc ← getIntList st "left_child"
  let rc ← getIntList st "right_child"
  let lv ← getFloatList st "leaf_value"
  let ct ← getIntListOpt st "cat_threshold"
  let cb ← getIntListOpt st "cat_boundaries"
  .ok ⟨tr, nl, nc, sf, th, dt, lc, rc, lv, ct, cb⟩

/-- Source: `_parse_tree(lines)`. -/
def parseTree (lines : List String) : Except Err TreeStruct := do
  let st ← structFromBlock lines TREE_PARSED_KEYS
  TreeStruct.ofStruct st

/-! ## `parse_model_file` -/

/-- The tree-block loop of `parse_model_file`, fuelled so that it stays
structurally recursive: collect a record for every block whose first line
starts with `"Tree="`, stop (without consuming more of the file) at a block
whose first line is `"end of trees"`, stop silently at EOF, and fail on any
other first line.  Each iteration consumes at least one line, so the fuel
passed by `parseTreesBlocks` below is sufficient
(`parseTreesFuel_ne_fuelExhausted`): `fuelExhausted` never escapes it. -/
def parseTreesFuel : Nat → List String → Except Err (List TreeStruct)
  | 0, _ => .error .fuelExhausted
  | fuel + 1, ls =>
    match (getNextBlock ls).1 with
    | [] => .ok []
    | l0 :: _ =>
      if leadsWith "Tree=" l0 then do
        let t ← parseTree (getNextBlock ls).1
        let ts ← parseTreesFuel fuel (getNextBlock ls).2
        .ok (t :: ts)
      else if l0 = "end of trees" then .ok []
      else .error .badBlockStart

/-- The tree-block loop of `parse_model_file`. -/
def parseTreesBlocks (ls : List String) : Except Err (List TreeStruct) :=
  parseTreesFuel (ls.length + 1) ls

/-- The result of `parse_model_file`.  With `general_info_only=True` the
source returns a dict without the `trees`-loop results and without the
`pandas_categorical` key; the model returns `trees = []` and
`pandas_categorical = none` in that case. -/
structure ParsedModel where
  general_info : GeneralInfo
  trees : List TreeStruct
  pandas_categorical : Option String
  deriving Repr, DecidableEq

/-- Source: `parse_model_file(file_path, general_info_only)`. -/
def parseModelFile (cs : List Char) (generalInfoOnly : Bool) :
    Except Err ParsedModel :=
  let ls := fileLines cs
  let b0 := (getNextBlock ls).1
  let rest := (getNextBlock ls).2
  match b0[0]?, b0[1]? with
  | some l0, some l1 =>
    if l0 = "tree" ∧ leadsWith "version=" l1 then do
      let giSt ← structFromBlock b0 INPUT_PARSED_KEYS
      let gi ← GeneralInfo.ofStruct giSt
      if generalInfoOnly then .ok ⟨gi, [], none⟩
      else do
        let ts ← parseTreesBlocks rest
        let pc ← parsePandasCategorical cs
        .ok ⟨gi, ts, some pc⟩
    else .error .notModelFile
  | _, _ => .error .indexError

/-! ## `parse_to_forest` (the forest builder)

The `Forest`/`Tree`/`Node`/`Leaf` classes come from
`lleaves.tree_compiler.frontend`, which is not among the sources.  Their data
content is modelled from the spec (§3 Data Model): a `Leaf` is its position
and value; a `Node` carries the raw split fields, an optional categorical
payload attached by `finalize_categorical` (modelled as storing the passed
argument), and, once wired, its two children.  Object references are
positions into the per-tree arrays. -/

/-- Python `enumerate`, starting at `n`. -/
def enumF {α : Type} : Nat → List α → List (Nat × α)
  | _, [] => []
  | n, x :: xs => (n, x) :: enumF (n + 1) xs

/-- Python `zip` over the five parallel per-node arrays: truncates to the
shortest. -/
def zip5 {α β γ δ ε : Type} (a : List α) (b : List β) (c : List γ)
    (d : List δ) (e : List ε) : List (α × β × γ × δ × ε) :=
  a.zip (b.zip (c.zip (d.zip e)))

/-- Modelled from the spec: `Leaf(idx, value)` — identity = position in the
per-tree leaf array, `value` = the prediction contribution (kept as its
source token). -/
structure Leaf where
  idx : Nat
  value : String
  deriving Repr, DecidableEq

/-- Modelled from the spec: a `Node` before children are attached (the raw
split fields); `catValue` is the payload attached by `finalize_categorical`,
absent until finalization. -/
structure RawNode where
  idx : Nat
  splitFeature : Int
  threshold : String
  decisionType : Int
  leftIdx : Int
  rightIdx : Int
  catValue : Option Int := none
  deriving Repr, DecidableEq

/-- Modelled from the spec: a resolved child reference (NodeRef) — a direct
`Leaf`, or an internal node given by its position in the tree's node array
(Python holds an object reference; the position identifies that object). -/
inductive Child where
  | leaf (lf : Leaf)
  | node (i : Nat)
  deriving Repr, DecidableEq

/-- Modelled from the spec: a `Node` with both children attached
(`add_children`). -/
structure BNode extends RawNode where
  left : Child
  right : Child
  deriving Repr, DecidableEq

/-- Modelled from the spec: `Tree(tree_index, root, n_args)` plus the
per-tree node and leaf arrays that the root's object graph lives in. -/
structure BTree where
  treeIndex : Int
  nodes : List BNode
  leaves : List Leaf
  root : Child
  nArgs : Int
  deriving Repr, DecidableEq

/-- Modelled from the spec: `Forest(trees, n_args)`. -/
structure Forest where
  trees : List BTree
  nArgs : Int
  deriving Repr, DecidableEq

/-- Modelled from the spec: `Node.validate` — the `Node`/`Leaf` classes are
not among the sources; per spec §4.2 step 7 a node must have both children
attached (structurally guaranteed here), a categorical node must have a
non-empty category-threshold payload, and a numerical node's threshold must
be finite (guaranteed for every accepted float token, which excludes
`inf`/`nan` spellings). -/
def nodeValidate (n : BNode) : Bool :=
  n.decisionType != 1 || n.catValue.isSome

/-- The indices of the categorical nodes:
`[idx for idx, dt in enumerate(decision_type) if dt == 1]`. -/
def catNodeIdxs (t : TreeStruct) : List Nat :=
  ((enumF 0 t.decision_type).filter (fun p => p.2 == 1)).map (fun p => p.1)

/-- The finalization loop:
`for i, idx in enumerate(categorical_nodes): nodes[idx].finalize_categorical(tree_struct["cat_threshold"][i])`.
Subscripting `None` (`cat_threshold` absent) and list subscripts out of range
are failures, as in Python. -/
def finalizeCats (ct : Option (List Int)) :
    List RawNode → List (Nat × Nat) → Except Err (List RawNode)
  | nodes, [] => .ok nodes
  | nodes, (i, idx) :: rest =>
    match ct with
    | none => .error .noneSubscript
    | some ctl =>
      match ctl[i]? with
      | none => .error .indexError
      | some v =>
        match nodes[idx]? with
        | none => .error .indexError
        | some n => finalizeCats ct (nodes.set idx { n with catValue := some v }) rest

/-- Source: `leaves[abs(idx) - 1] if idx < 0 else nodes[idx]`. -/
def resolveRef (nodes : List RawNode) (leaves : List Leaf) (v : Int) :
    Except Err Child :=
  if v < 0 then
    match leaves[v.natAbs - 1]? with
    | some lf => .ok (.leaf lf)
    | none => .error .indexError
  else
    match nodes[v.toNat]? with
    | some _ => .ok (.node v.toNat)
    | none => .error .indexError

/-- The child-wiring loop: resolve left then right for each node in order and
attach them (`add_children`). -/
def wireChildren (nodes : List RawNode) (leaves : List Leaf) :
    Except Err (List BNode) :=
  mapE (fun n => do
    let l ← resolveRef nodes leaves n.leftIdx
    let r ← resolveRef nodes leaves n.rightIdx
    Except.ok (BNode.mk n l r)) nodes

/-- The validation loop: `for node in nodes: node.validate()`. -/
def validateAll : List BNode → Except Err Unit
  | [] => .ok ()
  | n :: rest => if nodeValidate n then validateAll rest else .error .validationError

/-- The leaf materialization of `parse_to_forest`:
`[Leaf(idx, value) for idx, value in enumerate(tree_struct["leaf_value"])]`. -/
def leavesOf (t : TreeStruct) : List Leaf :=
  (enumF 0 t.leaf_value).map (fun p => Leaf.mk p.1 p.2)

/-- The node materialization of `parse_to_forest`: one raw node per position
of the zipped five parallel arrays. -/
def rawNodesOf (t : TreeStruct) : List RawNode :=
  (enumF 0 (zip5 t.split_feature t.threshold t.decision_type
      t.left_child t.right_child)).map
    (fun p => RawNode.mk p.1 p.2.1 p.2.2.1 p.2.2.2.1 p.2.2.2.2.1 p.2.2.2.2.2 none)

/-- The per-tree body of `parse_to_forest`. -/
def buildTree (nArgs : Int) (t : TreeStruct) : Except Err BTree :=
  let leaves := leavesOf t
  let rawNodes := rawNodesOf t
  if rawNodes.length ≠ t.decision_type.length then .error .nodeLenMismatch
  else
    let catIdxs := catNodeIdxs t
    if (catIdxs.length : Int) ≠ t.num_cat then .error .catCountMismatch
    else do
      let nodes ← finalizeCats t.cat_threshold rawNodes (enumF 0 catIdxs)
      let wired ← wireChildren nodes leaves
      let _ ← validateAll wired
      match wired[0]? with
      | some _ => .ok ⟨t.tree, wired, leaves, .node 0, nArgs⟩
      | none => .error .rootIndexError

/-- Source: `parse_to_forest(model_path)`. -/
def parseToForest (cs : List Char) : Except Err Forest := do
  let pm ← parseModelFile cs false
  let nArgs := pm.general_info.max_feature_idx + 1
  let trees ← mapE (buildTree nArgs) pm.trees
  .ok ⟨trees, nArgs⟩

/-- Modelled from the spec: the slicing rule the spec states for
finalization, kept as a separate definition so it can be compared against
the source behaviour (claim C2) — "attach its resolved category-threshold-set
payload (sliced from the tree's shared `cat_threshold`/`cat_boundaries`
arrays …)", i.e. the `i`-th categorical node's slice is
`cat_threshold[cat_boundaries[i] : cat_boundaries[i+1]]`. -/
def catSliceSpec (t : TreeStruct) (i : Nat) : List Int :=
  let ct := t.cat_threshold.getD []
  let cb := t.cat_boundaries.getD []
  match cb[i]?, cb[i + 1]? with
  | some lo, some hi => (ct.take hi.toNat).drop lo.toNat
  | _, _ => []

/-- Modelled from the spec: the NodeRef resolution rule as the spec states
it, relative to a built tree — a negative raw index `v` names the leaf at
position `abs(v) - 1` of the tree's leaf array, a non-negative one the
internal node at position `v` of its node array. -/
def resolvedChild (bt : BTree) (v : Int) (c : Child) : Prop :=
  if v < 0 then ∃ lf, bt.leaves[v.natAbs - 1]? = some lf ∧ c = .leaf lf
  else c = .node v.toNat ∧ v.toNat < bt.nodes.length

/-- Reassemble a line stream from a list of blocks, one blank separator line
after each block. -/
def joinBlocks : List (List String) → List String
  | [] => []
  | b :: bs => b ++ "" :: joinBlocks bs

/-! ## Concrete inputs used by the theorems below -/

/-- Unwrap a known-successful result (used to name concrete built values). -/
def getOkD {α : Type} (e : Except Err α) (d : α) : α :=
  match e with
  | .ok a => a
  | .error _ => d

/-- A well-formed model file with zero tree blocks. -/
def zeroTreesFile : List Char :=
  ("tree\nversion=v3\nmax_feature_idx=1\nfeature_infos=a b\nobjective=binary\n\n"
    ++ "end of trees\n\nfeature importances\n\nparameters\n\nend of parameters\n"
    ++ "pandas_categorical:null").data

/-- A model file whose single tree block runs to end-of-file: there is no
`"end of trees"` block anywhere, and the pandas trailer line sits inside the
tree block (it holds exactly one `'='`, so the block decoder skips it as an
unknown key). -/
def noMarkerFile : List Char :=
  ("tree\nversion=v3\nmax_feature_idx=0\nfeature_infos=a\nobjective=binary\n\n"
    ++ "Tree=0\nnum_leaves=1\nnum_cat=0\nsplit_feature=\nthreshold=\n"
    ++ "decision_type=\nleft_child=\nright_child=\nleaf_value=0\n"
    ++ "pandas_categorical:[[\x22a=b\x22]]").data

/-- A model file that is well-formed through the tree section but whose last
two lines do not carry the pandas marker. -/
def noPandasFile : List Char :=
  ("tree\nversion=v3\nmax_feature_idx=0\nfeature_infos=a\nobjective=binary\n\n"
    ++ "end of trees\nsomething\nother").data

/-- A degenerate single-leaf tree record: zero internal nodes, one leaf. -/
def degenRecord : TreeStruct :=
  ⟨0, 1, 0, [], [], [], [], [], ["0.5"], none, none⟩

/-- A two-node, three-leaf record exercising both child-reference signs. -/
def rec3 : TreeStruct :=
  ⟨7, 3, 0, [0, 1], ["0.5", "1.5"], [2, 2], [1, -1], [-3, -2],
    ["1.0", "2.0", "3.0"], none, none⟩

/-- The tree built from `rec3`. -/
def bt3 : BTree :=
  getOkD (buildTree 2 rec3) ⟨0, [], [], .node 0, 0⟩

/-- A record with one categorical node, two threshold entries, and
`cat_boundaries = [0, 2]`. -/
def rec2a : TreeStruct :=
  ⟨0, 2, 1, [0], ["0.0"], [1], [-1], [-2], ["1.0", "2.0"], some [5, 7],
    some [0, 2]⟩

/-- Source: `rec2a` with `cat_boundaries` changed to `[0, 1]`: the spec's slicing
rule gives it different category-threshold slices, the source the same
built tree. -/
def rec2b : TreeStruct :=
  { rec2a with cat_boundaries := some [0, 1] }

/-- The tree built from `rec2a`. -/
def bt2 : BTree :=
  getOkD (buildTree 1 rec2a) ⟨0, [], [], .node 0, 0⟩

/-- A record whose `split_feature` is longer than its `decision_type`
(lengths 2 vs 1); the other three per-node arrays have length 1. -/
def rec7 : TreeStruct :=
  ⟨0, 2, 0, [0, 0], ["0.5"], [2], [-1], [-2], ["1.0", "2.0"], none, none⟩

/-- A record whose declared `num_cat` (2) disagrees with the number of
categorical-flagged nodes (1). -/
def rec6 : TreeStruct :=
  ⟨0, 2, 2, [0], ["0.0"], [1], [-1], [-2], ["1.0", "2.0"], some [5],
    some [0, 1]⟩

/-- A record agreeing with `rec6` except that `num_cat` matches the flags. -/
def rec6ok : TreeStruct :=
  { rec6 with num_cat := 1 }

/-- A complete tree block, used with and without an unknown-key line. -/
def tailBlock : List String :=
  ["Tree=0", "num_leaves=1", "num_cat=0", "split_feature=", "threshold=",
   "decision_type=", "left_child=", "right_child=", "leaf_value=0"]

/-- The record `tailBlock` decodes to. -/
def rec4 : TreeStruct :=
  ⟨0, 1, 0, [], [], [], [], [], ["0"], none, none⟩

/-- An unknown-key line whose value itself contains a `'='`. -/
def strayLine : String := "foo=1=2"

/-- An unknown-key line with exactly one `'='`. -/
def benignLine : String := "foo=bar"

/-- Strip the categorical payload: `finalize_categorical` changes nothing
else on a node. -/
def sansCat (n : RawNode) : RawNode :=
  { n with catValue := none }

/-! # Theorems -/

theorem getNextBlock_rest_length_lt (ls : List String)
    (h : (getNextBlock ls).1 ≠ []) : (getNextBlock ls).2.length < ls.length := by
  unfold getNextBlock at *
  simp only at h ⊢
  set s1 := ls.dropWhile (· == "") with hs1
  have htw : s1.takeWhile (· ≠ "") ≠ [] := by
    intro hc
    rw [hc] at h
    exact h rfl
  have hlen : (s1.takeWhile (· ≠ "")).length + (s1.dropWhile (· ≠ "")).length
      = s1.length := by
    conv_rhs => rw [← List.takeWhile_append_dropWhile (· ≠ "") s1]
    exact (List.length_append _ _).symm
  have h1 : 1 ≤ (s1.takeWhile (· ≠ "")).length :=
    Nat.one_le_iff_ne_zero.mpr (by simpa [List.length_eq_zero] using htw)
  have h2 : s1.length ≤ ls.length := (List.dropWhile_sublist _).length_le
  omega

/-! ### Library lemmas about the small recursors -/

theorem err_bind {α β : Type} (e : Err) (f : α → Except Err β) :
    (Except.error e >>= f) = .error e := rfl

theorem ok_bind {α β : Type} (a : α) (f : α → Except Err β) :
    (Except.ok a >>= f) = f a := rfl

theorem getElem?_some_lt {α : Type} (l : List α) (i : Nat) (x : α)
    (h : l[i]? = some x) : i < l.length := by
  by_contra hge
  rw [List.getElem?_eq_none (by omega)] at h
  exact Option.noConfusion h

theorem enumF_length {α : Type} (n : Nat) (l : List α) :
    (enumF n l).length = l.length := by
  induction l generalizing n with
  | nil => rfl
  | cons x xs ih => simp [enumF, ih]

theorem enumF_getElem? {α : Type} (n : Nat) (l : List α) (i : Nat) :
    (enumF n l)[i]? = (l[i]?).map (fun x => (n + i, x)) := by
  induction l generalizing n i with
  | nil => simp [enumF]
  | cons x xs ih =>
    cases i with
    | zero => simp [enumF]
    | succ j =>
      simp only [enumF, List.getElem?_cons_succ, ih (n + 1) j]
      cases xs[j]? with
      | none => simp
      | some y => simp; omega

theorem enumF_map_snd {α : Type} (n : Nat) (l : List α) :
    (enumF n l).map (fun p => p.2) = l := by
  induction l generalizing n with
  | nil => rfl
  | cons x xs ih => simp [enumF, ih]

theorem enumF_mem {α : Type} (n : Nat) (l : List α) (p : Nat × α)
    (h : p ∈ enumF n l) : n ≤ p.1 ∧ (l[p.1 - n]?) = some p.2 := by
  induction l generalizing n with
  | nil => simp [enumF] at h
  | cons x xs ih =>
    simp only [enumF, List.mem_cons] at h
    rcases h with h | h
    · subst h; simp
    · obtain ⟨h1, h2⟩ := ih (n + 1) h
      refine ⟨by omega, ?_⟩
      have hs : p.1 - n = (p.1 - (n + 1)) + 1 := by omega
      rw [hs, List.getElem?_cons_succ]
      exact h2

theorem mapE_ok_length {α β : Type} (f : α → Except Err β) (xs : List α)
    (ys : List β) (h : mapE f xs = .ok ys) : ys.length = xs.length := by
  induction xs generalizing ys with
  | nil =>
    simp only [mapE] at h
    cases h
    rfl
  | cons x xs ih =>
    simp only [mapE] at h
    cases hx : f x with
    | error e => rw [hx, err_bind] at h; exact Except.noConfusion h
    | ok y =>
      rw [hx, ok_bind] at h
      cases hxs : mapE f xs with
      | error e => rw [hxs, err_bind] at h; exact Except.noConfusion h
      | ok ys' =>
        rw [hxs, ok_bind] at h
        cases h
        simp [ih ys' hxs]

theorem mapE_ok_getElem? {α β : Type} (f : α → Except Err β) (xs : List α)
    (ys : List β) (h : mapE f xs = .ok ys) (i : Nat) (x : α)
    (hx : xs[i]? = some x) : ∃ y, ys[i]? = some y ∧ f x = .ok y := by
  induction xs generalizing ys i with
  | nil => simp at hx
  | cons a xs ih =>
    simp only [mapE] at h
    cases ha : f a with
    | error e => rw [ha, err_bind] at h; exact Except.noConfusion h
    | ok y =>
      rw [ha, ok_bind] at h
      cases hxs : mapE f xs with
      | error e => rw [hxs, err_bind] at h; exact Except.noConfusion h
      | ok ys' =>
        rw [hxs, ok_bind] at h
        cases h
        cases i with
        | zero =>
          simp at hx
          subst hx
          exact ⟨y, by simp, ha⟩
        | succ j =>
          simp at hx
          obtain ⟨y', hy', hfy'⟩ := ih ys' hxs j hx
          exact ⟨y', by simpa using hy', hfy'⟩

theorem mapE_error_mem {α β : Type} (f : α → Except Err β) (xs : List α)
    (e : Err) (h : mapE f xs = .error e) : ∃ x ∈ xs, f x = .error e := by
  induction xs with
  | nil => simp only [mapE] at h; exact Except.noConfusion h
  | cons a xs ih =>
    simp only [mapE] at h
    cases ha : f a with
    | error e' =>
      rw [ha, err_bind] at h
      cases h
      exact ⟨a, by simp, ha⟩
    | ok y =>
      rw [ha, ok_bind] at h
      cases hxs : mapE f xs with
      | error e' =>
        rw [hxs, err_bind] at h
        cases h
        obtain ⟨x, hx, hfx⟩ := ih hxs
        exact ⟨x, by simp [hx], hfx⟩
      | ok ys' =>
        rw [hxs, ok_bind] at h
        exact Except.noConfusion h

theorem zip_getElem?_some {α β : Type} (a : List α) (b : List β) (i : Nat)
    (p : α × β) (h : (a.zip b)[i]? = some p) :
    a[i]? = some p.1 ∧ b[i]? = some p.2 := by
  induction a generalizing b i with
  | nil => simp at h
  | cons x xs ih =>
    cases b with
    | nil => simp at h
    | cons y ys =>
      cases i with
      | zero =>
        simp only [List.zip_cons_cons, List.getElem?_cons_zero,
          Option.some.injEq] at h
        subst h
        exact ⟨by simp, by simp⟩
      | succ j =>
        simp only [List.zip_cons_cons, List.getElem?_cons_succ] at h ⊢
        exact ih ys j h

theorem zip5_getElem?_some {α β γ δ ε : Type} (a : List α) (b : List β)
    (g : List γ) (d : List δ) (e : List ε) (i : Nat) (p : α × β × γ × δ × ε)
    (h : (zip5 a b g d e)[i]? = some p) :
    a[i]? = some p.1 ∧ b[i]? = some p.2.1 ∧ g[i]? = some p.2.2.1 ∧
    d[i]? = some p.2.2.2.1 ∧ e[i]? = some p.2.2.2.2 := by
  unfold zip5 at h
  obtain ⟨h1, h2⟩ := zip_getElem?_some _ _ _ _ h
  obtain ⟨h3, h4⟩ := zip_getElem?_some _ _ _ _ h2
  obtain ⟨h5, h6⟩ := zip_getElem?_some _ _ _ _ h4
  obtain ⟨h7, h8⟩ := zip_getElem?_some _ _ _ _ h6
  exact ⟨h1, h3, h5, h7, h8⟩

theorem zip5_length {α β γ δ ε : Type} (a : List α) (b : List β) (g : List γ)
    (d : List δ) (e : List ε) :
    (zip5 a b g d e).length =
      min a.length (min b.length (min g.length (min d.length e.length))) := by
  simp [zip5]

/-! ### Lemmas about the forest-builder stages -/

theorem enumF_pairwise_fst {α : Type} (n : Nat) (l : List α) :
    (enumF n l).Pairwise (fun p q => p.1 < q.1) := by
  induction l generalizing n with
  | nil => exact List.Pairwise.nil
  | cons x xs ih =>
    refine List.Pairwise.cons ?_ (ih (n + 1))
    intro q hq
    have := (enumF_mem (n + 1) xs q hq).1
    simp only
    omega

theorem catNodeIdxs_pairwise (t : TreeStruct) :
    (catNodeIdxs t).Pairwise (· < ·) := by
  unfold catNodeIdxs
  rw [List.pairwise_map]
  exact (enumF_pairwise_fst 0 t.decision_type).sublist (List.filter_sublist _)

theorem catNodeIdxs_getElem?_mem (t : TreeStruct) (idx : Nat)
    (h : idx ∈ catNodeIdxs t) : t.decision_type[idx]? = some 1 := by
  unfold catNodeIdxs at h
  simp only [List.mem_map, List.mem_filter] at h
  obtain ⟨p, ⟨hp, hp2⟩, hp1⟩ := h
  have h2 := (enumF_mem 0 t.decision_type p hp).2
  simp only [Nat.sub_zero] at h2
  rw [hp1] at h2
  simp only [beq_iff_eq] at hp2
  rw [hp2] at h2
  exact h2

theorem catNodeIdxs_length_countP (t : TreeStruct) :
    (catNodeIdxs t).length = t.decision_type.countP (· == 1) := by
  unfold catNodeIdxs
  rw [List.length_map]
  have key : ∀ (n : Nat) (l : List Int),
      ((enumF n l).filter (fun p => p.2 == 1)).length = l.countP (· == 1) := by
    intro n l
    induction l generalizing n with
    | nil => rfl
    | cons x xs ih =>
      simp only [enumF, List.filter_cons, List.countP_cons]
      by_cases hx : (x == 1) = true
      · simp [hx, ih (n + 1)]
      · simp [hx, ih (n + 1), List.countP_cons]
  exact key 0 t.decision_type

theorem finalizeCats_ok_sansCat (ct : Option (List Int)) (ps : List (Nat × Nat))
    (nodes ns : List RawNode) (h : finalizeCats ct nodes ps = .ok ns) (j : Nat) :
    (ns[j]?).map sansCat = (nodes[j]?).map sansCat := by
  induction ps generalizing nodes with
  | nil =>
    simp only [finalizeCats] at h
    cases h
    rfl
  | cons pr rest ih =>
    obtain ⟨i, idx⟩ := pr
    cases ct with
    | none => simp only [finalizeCats] at h; exact Except.noConfusion h
    | some ctl =>
      simp only [finalizeCats] at h
      cases hctl : ctl[i]? with
      | none => rw [hctl] at h; exact Except.noConfusion h
      | some v =>
        rw [hctl] at h
        cases hn : nodes[idx]? with
        | none => rw [hn] at h; exact Except.noConfusion h
        | some n =>
          rw [hn] at h
          have step := ih _ h
          rw [step]
          by_cases hij : idx = j
          · subst hij
            have hlt : idx < nodes.length := getElem?_some_lt _ _ _ hn
            rw [List.getElem?_set_self hlt, hn]
            rfl
          · rw [List.getElem?_set_ne hij]

theorem finalizeCats_ok_untouched (ct : Option (List Int))
    (ps : List (Nat × Nat)) (nodes ns : List RawNode)
    (h : finalizeCats ct nodes ps = .ok ns) (j : Nat)
    (hj : j ∉ ps.map (fun p => p.2)) : ns[j]? = nodes[j]? := by
  induction ps generalizing nodes with
  | nil =>
    simp only [finalizeCats] at h
    cases h
    rfl
  | cons pr rest ih =>
    obtain ⟨i, idx⟩ := pr
    simp only [List.map_cons, List.mem_cons] at hj
    push_neg at hj
    obtain ⟨hj1, hj2⟩ := hj
    cases ct with
    | none => simp only [finalizeCats] at h; exact Except.noConfusion h
    | some ctl =>
      simp only [finalizeCats] at h
      cases hctl : ctl[i]? with
      | none => rw [hctl] at h; exact Except.noConfusion h
      | some v =>
        rw [hctl] at h
        cases hn : nodes[idx]? with
        | none => rw [hn] at h; exact Except.noConfusion h
        | some n =>
          rw [hn] at h
          rw [ih _ h hj2, List.getElem?_set_ne (fun hc => hj1 hc.symm)]

theorem finalizeCats_ok_sets (ct : Option (List Int)) (ps : List (Nat × Nat))
    (nodes ns : List RawNode) (hd : (ps.map (fun p => p.2)).Nodup)
    (h : finalizeCats ct nodes ps = .ok ns) (pr : Nat × Nat) (hpr : pr ∈ ps) :
    ∃ ctl v, ct = some ctl ∧ ctl[pr.1]? = some v ∧
      (ns[pr.2]?).map (fun n => n.catValue) = some (some v) := by
  induction ps generalizing nodes with
  | nil => simp at hpr
  | cons q rest ih =>
    obtain ⟨i, idx⟩ := q
    simp only [List.map_cons, List.nodup_cons] at hd
    obtain ⟨hd1, hd2⟩ := hd
    cases ct with
    | none => simp only [finalizeCats] at h; exact Except.noConfusion h
    | some ctl =>
      simp only [finalizeCats] at h
      cases hctl : ctl[i]? with
      | none => rw [hctl] at h; exact Except.noConfusion h
      | some v =>
        rw [hctl] at h
        cases hn : nodes[idx]? with
        | none => rw [hn] at h; exact Except.noConfusion h
        | some n =>
          rw [hn] at h
          rcases List.mem_cons.mp hpr with hq | hq
          · subst hq
            refine ⟨ctl, v, rfl, hctl, ?_⟩
            have huntouched := finalizeCats_ok_untouched _ _ _ _ h idx hd1
            have hlt : idx < nodes.length := getElem?_some_lt _ _ _ hn
            rw [huntouched, List.getElem?_set_self hlt]
            rfl
          · exact ih _ hd2 h hq

theorem finalizeCats_error_cases (ct : Option (List Int))
    (ps : List (Nat × Nat)) (nodes : List RawNode) (e : Err)
    (h : finalizeCats ct nodes ps = .error e) :
    e = .noneSubscript ∨ e = .indexError := by
  induction ps generalizing nodes with
  | nil => simp only [finalizeCats] at h; exact Except.noConfusion h
  | cons pr rest ih =>
    obtain ⟨i, idx⟩ := pr
    cases ct with
    | none => simp only [finalizeCats] at h; cases h; exact Or.inl rfl
    | some ctl =>
      simp only [finalizeCats] at h
      cases hctl : ctl[i]? with
      | none => rw [hctl] at h; cases h; exact Or.inr rfl
      | some v =>
        rw [hctl] at h
        cases hn : nodes[idx]? with
        | none => rw [hn] at h; cases h; exact Or.inr rfl
        | some n =>
          rw [hn] at h
          exact ih _ h

theorem resolveRef_ok (nodes : List RawNode) (leaves : List Leaf) (v : Int)
    (ch : Child) (h : resolveRef nodes leaves v = .ok ch) :
    (v < 0 → ∃ lf, leaves[v.natAbs - 1]? = some lf ∧ ch = .leaf lf) ∧
    (0 ≤ v → ch = .node v.toNat ∧ v.toNat < nodes.length) := by
  unfold resolveRef at h
  by_cases hv : v < 0
  · rw [if_pos hv] at h
    cases hlf : leaves[v.natAbs - 1]? with
    | none => rw [hlf] at h; exact Except.noConfusion h
    | some lf =>
      rw [hlf] at h
      cases h
      exact ⟨fun _ => ⟨lf, rfl, rfl⟩, fun h0 => absurd hv (by omega)⟩
  · rw [if_neg hv] at h
    cases hn : nodes[v.toNat]? with
    | none => rw [hn] at h; exact Except.noConfusion h
    | some n =>
      rw [hn] at h
      cases h
      refine ⟨fun hlt => absurd hlt hv, fun _ => ⟨rfl, ?_⟩⟩
      exact getElem?_some_lt _ _ _ hn

theorem resolveRef_error_cases (nodes : List RawNode) (leaves : List Leaf)
    (v : Int) (e : Err) (h : resolveRef nodes leaves v = .error e) :
    e = .indexError := by
  unfold resolveRef at h
  by_cases hv : v < 0
  · rw [if_pos hv] at h
    cases hlf : leaves[v.natAbs - 1]? with
    | none => rw [hlf] at h; cases h; rfl
    | some lf => rw [hlf] at h; exact Except.noConfusion h
  · rw [if_neg hv] at h
    cases hn : nodes[v.toNat]? with
    | none => rw [hn] at h; cases h; rfl
    | some n => rw [hn] at h; exact Except.noConfusion h

theorem wireOne_ok (nodes : List RawNode) (leaves : List Leaf) (n : RawNode)
    (m : BNode)
    (h : (do
        let l ← resolveRef nodes leaves n.leftIdx
        let r ← resolveRef nodes leaves n.rightIdx
        Except.ok (BNode.mk n l r)) = Except.ok m) :
    m.toRawNode = n ∧ resolveRef nodes leaves n.leftIdx = .ok m.left ∧
      resolveRef nodes leaves n.rightIdx = .ok m.right := by
  cases hl : resolveRef nodes leaves n.leftIdx with
  | error e => rw [hl, err_bind] at h; exact Except.noConfusion h
  | ok l =>
    rw [hl, ok_bind] at h
    cases hr : resolveRef nodes leaves n.rightIdx with
    | error e => rw [hr, err_bind] at h; exact Except.noConfusion h
    | ok r =>
      rw [hr, ok_bind] at h
      cases h
      exact ⟨rfl, rfl, rfl⟩

theorem validateAll_error_cases (l : List BNode) (e : Err)
    (h : validateAll l = .error e) : e = .validationError := by
  induction l with
  | nil => simp only [validateAll] at h; exact Except.noConfusion h
  | cons n rest ih =>
    simp only [validateAll] at h
    by_cases hv : nodeValidate n = true
    · rw [if_pos hv] at h; exact ih h
    · rw [if_neg hv] at h; cases h; rfl

/-- Inversion of a successful `buildTree`: the record passed both assertions
and the built tree is the wired finalized node list over the materialized
leaves, rooted at node `0`. -/
theorem buildTree_ok_inv (a : Int) (t : TreeStruct) (bt : BTree)
    (h : buildTree a t = .ok bt) :
    (rawNodesOf t).length = t.decision_type.length ∧
    ((catNodeIdxs t).length : Int) = t.num_cat ∧
    ∃ ns, finalizeCats t.cat_threshold (rawNodesOf t) (enumF 0 (catNodeIdxs t)) = .ok ns ∧
      wireChildren ns (leavesOf t) = .ok bt.nodes ∧
      bt.leaves = leavesOf t ∧ bt.root = .node 0 ∧
      bt.treeIndex = t.tree ∧ bt.nArgs = a := by
  unfold buildTree at h
  by_cases hlen : (rawNodesOf t).length = t.decision_type.length
  case neg => rw [if_pos hlen] at h; exact Except.noConfusion h
  rw [if_neg (by exact fun hc => hc hlen)] at h
  by_cases hcat : ((catNodeIdxs t).length : Int) = t.num_cat
  case neg => rw [if_pos hcat] at h; exact Except.noConfusion h
  rw [if_neg (by exact fun hc => hc hcat)] at h
  refine ⟨hlen, hcat, ?_⟩
  cases hfc : finalizeCats t.cat_threshold (rawNodesOf t) (enumF 0 (catNodeIdxs t)) with
  | error e => rw [hfc, err_bind] at h; exact Except.noConfusion h
  | ok ns =>
    rw [hfc, ok_bind] at h
    cases hwc : wireChildren ns (leavesOf t) with
    | error e => rw [hwc, err_bind] at h; exact Except.noConfusion h
    | ok wired =>
      rw [hwc, ok_bind] at h
      cases hva : validateAll wired with
      | error e => rw [hva, err_bind] at h; exact Except.noConfusion h
      | ok u =>
        rw [hva, ok_bind] at h
        cases hw0 : wired[0]? with
        | none => rw [hw0] at h; exact Except.noConfusion h
        | some w =>
          rw [hw0] at h
          cases h
          exact ⟨ns, rfl, hwc, rfl, rfl, rfl, rfl⟩

theorem rawNodesOf_getElem? (t : TreeStruct) (i : Nat) (r : RawNode)
    (h : (rawNodesOf t)[i]? = some r) :
    r.idx = i ∧ r.catValue = none ∧
    t.split_feature[i]? = some r.splitFeature ∧
    t.threshold[i]? = some r.threshold ∧
    t.decision_type[i]? = some r.decisionType ∧
    t.left_child[i]? = some r.leftIdx ∧
    t.right_child[i]? = some r.rightIdx := by
  unfold rawNodesOf at h
  rw [List.getElem?_map, enumF_getElem?] at h
  cases hz : (zip5 t.split_feature t.threshold t.decision_type t.left_child
      t.right_child)[i]? with
  | none => rw [hz] at h; exact Option.noConfusion h
  | some p =>
    rw [hz] at h
    simp only [Option.map_some', Option.some.injEq] at h
    obtain ⟨h1, h2, h3, h4, h5⟩ := zip5_getElem?_some _ _ _ _ _ _ _ hz
    subst h
    exact ⟨by simp, rfl, h1, h2, h3, h4, h5⟩

theorem finalized_node_fields (t : TreeStruct) (ns : List RawNode)
    (hfc : finalizeCats t.cat_threshold (rawNodesOf t) (enumF 0 (catNodeIdxs t))
      = .ok ns) (i : Nat) (y : RawNode) (hy : ns[i]? = some y) :
    y.idx = i ∧
    t.split_feature[i]? = some y.splitFeature ∧
    t.threshold[i]? = some y.threshold ∧
    t.decision_type[i]? = some y.decisionType ∧
    t.left_child[i]? = some y.leftIdx ∧
    t.right_child[i]? = some y.rightIdx := by
  have hsc := finalizeCats_ok_sansCat _ _ _ _ hfc i
  rw [hy] at hsc
  cases hr : (rawNodesOf t)[i]? with
  | none => rw [hr] at hsc; exact Option.noConfusion hsc
  | some r =>
    rw [hr] at hsc
    simp only [Option.map_some', Option.some.injEq, sansCat,
      RawNode.mk.injEq, and_true] at hsc
    obtain ⟨hidx, hsf, hth, hdt, hlc, hrc⟩ := hsc
    obtain ⟨f1, _, f3, f4, f5, f6, f7⟩ := rawNodesOf_getElem? t i r hr
    rw [hidx, hsf, hth, hdt, hlc, hrc]
    exact ⟨f1, f3, f4, f5, f6, f7⟩

/-- Everything `buildTree` guarantees about each built node: it came from a
finalized raw node at the same position, with both children produced by
`resolveRef` over the finalized node list and the materialized leaves. -/
theorem buildTree_ok_wiring (a : Int) (t : TreeStruct) (bt : BTree)
    (h : buildTree a t = .ok bt) :
    ∃ ns, bt.leaves = leavesOf t ∧ bt.nodes.length = ns.length ∧
      finalizeCats t.cat_threshold (rawNodesOf t) (enumF 0 (catNodeIdxs t)) = .ok ns ∧
      ∀ (idx : Nat) (n : BNode), bt.nodes[idx]? = some n →
        ∃ y : RawNode, ns[idx]? = some y ∧
        n.toRawNode = y ∧
        resolveRef ns (leavesOf t) y.leftIdx = .ok n.left ∧
        resolveRef ns (leavesOf t) y.rightIdx = .ok n.right := by
  obtain ⟨_, _, ns, hfc, hwc, hlv, _⟩ := buildTree_ok_inv a t bt h
  refine ⟨ns, hlv, ?_, hfc, ?_⟩
  · unfold wireChildren at hwc
    exact mapE_ok_length _ _ _ hwc
  · intro idx n hn
    have hlt : idx < bt.nodes.length := getElem?_some_lt _ _ _ hn
    have hlt2 : idx < ns.length := by
      unfold wireChildren at hwc
      rw [mapE_ok_length _ _ _ hwc] at hlt
      exact hlt
    have hy : ns[idx]? = some ns[idx] := List.getElem?_eq_getElem hlt2
    obtain ⟨m, hm, hfm⟩ := mapE_ok_getElem? _ _ _ hwc idx _ hy
    rw [hn] at hm
    cases hm
    obtain ⟨e1, e2, e3⟩ := wireOne_ok ns (leavesOf t) _ _ hfm
    exact ⟨ns[idx], hy, e1, e2, e3⟩

theorem wireChildren_error_cases (ns : List RawNode) (lv : List Leaf) (e : Err)
    (h : wireChildren ns lv = .error e) : e = .indexError := by
  unfold wireChildren at h
  obtain ⟨x, _, hfx⟩ := mapE_error_mem _ _ _ h
  cases hl : resolveRef ns lv x.leftIdx with
  | error e1 =>
    rw [hl, err_bind] at hfx
    cases hfx
    exact resolveRef_error_cases _ _ _ _ hl
  | ok l =>
    rw [hl, ok_bind] at hfx
    cases hr : resolveRef ns lv x.rightIdx with
    | error e2 =>
      rw [hr, err_bind] at hfx
      cases hfx
      exact resolveRef_error_cases _ _ _ _ hr
    | ok r =>
      rw [hr, ok_bind] at hfx
      exact Except.noConfusion hfx

/-- After both assertions pass, the only failures `buildTree` can produce are
subscript, validation or empty-root errors. -/
theorem buildTree_post_len_errors (a : Int) (t : TreeStruct)
    (hlen : (rawNodesOf t).length = t.decision_type.length)
    (hcat : ((catNodeIdxs t).length : Int) = t.num_cat)
    (e : Err) (h : buildTree a t = .error e) :
    e = .noneSubscript ∨ e = .indexError ∨ e = .validationError ∨
      e = .rootIndexError := by
  unfold buildTree at h
  rw [if_neg (fun hc => hc hlen), if_neg (fun hc => hc hcat)] at h
  cases hfc : finalizeCats t.cat_threshold (rawNodesOf t) (enumF 0 (catNodeIdxs t)) with
  | error e0 =>
    rw [hfc, err_bind] at h
    cases h
    rcases finalizeCats_error_cases _ _ _ _ hfc with h1 | h1
    · exact Or.inl h1
    · exact Or.inr (Or.inl h1)
  | ok ns =>
    rw [hfc, ok_bind] at h
    cases hwc : wireChildren ns (leavesOf t) with
    | error e1 =>
      rw [hwc, err_bind] at h
      cases h
      exact Or.inr (Or.inl (wireChildren_error_cases _ _ _ hwc))
    | ok wired =>
      rw [hwc, ok_bind] at h
      cases hva : validateAll wired with
      | error e2 =>
        rw [hva, err_bind] at h
        cases h
        exact Or.inr (Or.inr (Or.inl (validateAll_error_cases _ _ hva)))
      | ok u =>
        rw [hva, ok_bind] at h
        cases hw0 : wired[0]? with
        | none =>
          rw [hw0] at h
          cases h
          exact Or.inr (Or.inr (Or.inr rfl))
        | some w => rw [hw0] at h; exact Except.noConfusion h

theorem buildTree_cat_mismatch (a : Int) (t : TreeStruct)
    (hlen : (rawNodesOf t).length = t.decision_type.length)
    (hcat : ((catNodeIdxs t).length : Int) ≠ t.num_cat) :
    buildTree a t = .error .catCountMismatch := by
  unfold buildTree
  rw [if_neg (fun hc => hc hlen), if_pos hcat]

/-- C6.  Given the node-count assertion passed (every per-node array at least
as long as `decision_type`), the build fails with the categorical-count error
exactly when the number of `decision_type == 1` nodes differs from the
declared `num_cat`; when they agree the build proceeds past this check (it
can only fail later for other reasons, with different errors). -/
theorem c6_cat_count_check (a : Int) (t : TreeStruct)
    (hlen : (rawNodesOf t).length = t.decision_type.length) :
    buildTree a t = .error .catCountMismatch ↔
      ((t.decision_type.countP (· == 1) : Int) ≠ t.num_cat) := by
  rw [← catNodeIdxs_length_countP]
  constructor
  · intro h
    by_contra hc
    rcases buildTree_post_len_errors a t hlen hc _ h with h1 | h1 | h1 | h1 <;>
      exact Err.noConfusion h1
  · exact buildTree_cat_mismatch a t hlen

/-- C6, witness: `rec6` declares `num_cat = 2` against one categorical flag
and is rejected; `rec6ok` declares `1` and passes the check (and builds). -/
theorem c6_cat_count_check_witness :
    buildTree 1 rec6 = .error .catCountMismatch ∧
    buildTree 1 rec6ok ≠ .error .catCountMismatch :=
  ⟨(c6_cat_count_check 1 rec6 (by decide)).mpr (by decide),
   fun hc => absurd ((c6_cat_count_check 1 rec6ok (by decide)).mp hc)
     (by decide)⟩

/-- C7 (amended).  The node-count assertion fires exactly when the zipped
node list is shorter than `decision_type`, i.e. when one of the other four
per-node arrays is shorter than `decision_type`; arrays longer than
`decision_type` are silently truncated and never fatal. -/
theorem c7_length_mismatch_iff_shorter (a : Int) (t : TreeStruct) :
    buildTree a t = .error .nodeLenMismatch ↔
      (t.split_feature.length < t.decision_type.length ∨
       t.threshold.length < t.decision_type.length ∨
       t.left_child.length < t.decision_type.length ∨
       t.right_child.length < t.decision_type.length) := by
  have hraw : (rawNodesOf t).length =
      min t.split_feature.length (min t.threshold.length
        (min t.decision_type.length (min t.left_child.length
          t.right_child.length))) := by
    unfold rawNodesOf
    rw [List.length_map, enumF_length, zip5_length]
  constructor
  · intro h
    by_contra hc
    push_neg at hc
    obtain ⟨h1, h2, h3, h4⟩ := hc
    have hlen : (rawNodesOf t).length = t.decision_type.length := by
      rw [hraw]; omega
    by_cases hcat : ((catNodeIdxs t).length : Int) = t.num_cat
    · rcases buildTree_post_len_errors a t hlen hcat _ h with g | g | g | g <;>
        exact Err.noConfusion g
    · rw [buildTree_cat_mismatch a t hlen hcat] at h
      exact Err.noConfusion (Except.error.inj h)
  · intro hc
    unfold buildTree
    rw [if_pos (by rw [hraw]; omega)]

/-- C3.  Child-reference resolution: for every node of every successfully
built tree, both children are attached, and each comes from the signed raw
index in the record — a negative `v` resolving to the leaf at `abs(v) - 1` of
the tree's leaf array, a non-negative `v` to the internal node at `v` of its
node array. -/
theorem c3_child_reference_resolution (a : Int) (t : TreeStruct) (bt : BTree)
    (h : buildTree a t = .ok bt) (i : Nat) (n : BNode)
    (hn : bt.nodes[i]? = some n) :
    ∃ vl vr : Int, t.left_child[i]? = some vl ∧ t.right_child[i]? = some vr ∧
      resolvedChild bt vl n.left ∧ resolvedChild bt vr n.right := by
  obtain ⟨ns, hlv, hlen, hfc, hall⟩ := buildTree_ok_wiring a t bt h
  obtain ⟨y, hy, hny, hrl, hrr⟩ := hall i n hn
  obtain ⟨_, _, _, _, f5, f6⟩ := finalized_node_fields t ns hfc i y hy
  refine ⟨y.leftIdx, y.rightIdx, f5, f6, ?_, ?_⟩
  · have hres := resolveRef_ok _ _ _ _ hrl
    unfold resolvedChild
    by_cases hv : y.leftIdx < 0
    · rw [if_pos hv]
      obtain ⟨lf, hlf, hch⟩ := hres.1 hv
      exact ⟨lf, by rw [hlv]; exact hlf, hch⟩
    · rw [if_neg hv]
      obtain ⟨hch, hlt⟩ := hres.2 (by omega)
      exact ⟨hch, by rw [hlen]; exact hlt⟩
  · have hres := resolveRef_ok _ _ _ _ hrr
    unfold resolvedChild
    by_cases hv : y.rightIdx < 0
    · rw [if_pos hv]
      obtain ⟨lf, hlf, hch⟩ := hres.1 hv
      exact ⟨lf, by rw [hlv]; exact hlf, hch⟩
    · rw [if_neg hv]
      obtain ⟨hch, hlt⟩ := hres.2 (by omega)
      exact ⟨hch, by rw [hlen]; exact hlt⟩

/-- C3, witness: in the tree built from `rec3`, node `0`'s raw child indices
are `1` and `-3`, resolving to internal node `1` and to leaf `2`
(`abs(-3) - 1`) carrying value token `"3.0"`. -/
theorem c3_child_reference_resolution_witness :
    ∃ vl vr : Int, rec3.left_child[0]? = some vl ∧
      rec3.right_child[0]? = some vr ∧
      resolvedChild bt3 vl (Child.node 1) ∧
      resolvedChild bt3 vr (Child.leaf ⟨2, "3.0"⟩) :=
  c3_child_reference_resolution 2 rec3 bt3 rfl 0
    ⟨⟨0, 0, "0.5", 2, 1, -3, none⟩, Child.node 1, Child.leaf ⟨2, "3.0"⟩⟩ rfl

/-- C2 (amended).  For every successfully built tree: the `i`-th categorical
node (in encounter order) carries the single element `cat_threshold[i]` as
its payload — `cat_boundaries` plays no part; every node keeps the raw
threshold token of its position; and non-categorical nodes carry no
categorical payload. -/
theorem c2_categorical_payload_is_single_element (a : Int) (t : TreeStruct)
    (bt : BTree) (h : buildTree a t = .ok bt) :
    (∀ (i idx : Nat), (catNodeIdxs t)[i]? = some idx →
      ∃ (n : BNode) (v : Int), bt.nodes[idx]? = some n ∧
        (t.cat_threshold.getD [])[i]? = some v ∧ n.catValue = some v)
    ∧ (∀ (idx : Nat) (n : BNode), bt.nodes[idx]? = some n →
        t.threshold[idx]? = some n.threshold)
    ∧ (∀ (idx : Nat) (n : BNode), bt.nodes[idx]? = some n →
        n.decisionType ≠ 1 → n.catValue = none) := by
  obtain ⟨ns, hlv, hlen, hfc, hall⟩ := buildTree_ok_wiring a t bt h
  have hnodup : ((enumF 0 (catNodeIdxs t)).map (fun p => p.2)).Nodup := by
    rw [enumF_map_snd]
    exact (catNodeIdxs_pairwise t).imp Nat.ne_of_lt
  refine ⟨?_, ?_, ?_⟩
  · intro i idx hidx
    have hmem : (i, idx) ∈ enumF 0 (catNodeIdxs t) := by
      have hg : (enumF 0 (catNodeIdxs t))[i]? = some (i, idx) := by
        rw [enumF_getElem?, hidx]
        simp
      exact List.getElem?_mem hg
    obtain ⟨ctl, v, hct, hctl, hcv⟩ :=
      finalizeCats_ok_sets _ _ _ _ hnodup hfc (i, idx) hmem
    cases hy : ns[idx]? with
    | none => rw [hy] at hcv; exact Option.noConfusion hcv
    | some y =>
      rw [hy] at hcv
      simp only [Option.map_some', Option.some.injEq] at hcv
      have hidxlt : idx < ns.length := getElem?_some_lt _ _ _ hy
      have hbtlt : idx < bt.nodes.length := by rw [hlen]; exact hidxlt
      have hbn : bt.nodes[idx]? = some bt.nodes[idx] :=
        List.getElem?_eq_getElem hbtlt
      obtain ⟨y', hy', hny', _, _⟩ := hall idx _ hbn
      rw [hy] at hy'
      cases hy'
      refine ⟨bt.nodes[idx], v, hbn, ?_, ?_⟩
      · rw [hct]
        simpa using hctl
      · rw [show (bt.nodes[idx]).catValue = y.catValue from
          congrArg RawNode.catValue hny']
        exact hcv
  · intro idx n hn
    obtain ⟨y, hy, hny, _, _⟩ := hall idx n hn
    have hth := (finalized_node_fields t ns hfc idx y hy).2.2.1
    rw [show n.threshold = y.threshold from congrArg RawNode.threshold hny]
    exact hth
  · intro idx n hn hne
    obtain ⟨y, hy, hny, _, _⟩ := hall idx n hn
    have hflds := finalized_node_fields t ns hfc idx y hy
    have hnotmem : idx ∉ catNodeIdxs t := by
      intro hmem
      have h1 := catNodeIdxs_getElem?_mem t idx hmem
      have h2 := hflds.2.2.2.1
      rw [h1] at h2
      have : (1 : Int) = y.decisionType := Option.some.inj h2
      apply hne
      rw [show n.decisionType = y.decisionType from
        congrArg RawNode.decisionType hny]
      exact this.symm
    have huntouched := finalizeCats_ok_untouched _ _ _ _ hfc idx
      (by rw [enumF_map_snd]; exact hnotmem)
    rw [hy] at huntouched
    have hraw := rawNodesOf_getElem? t idx y huntouched.symm
    rw [show n.catValue = y.catValue from congrArg RawNode.catValue hny]
    exact hraw.2.1

/-- C2 (amended), witness: in the tree built from `rec2a`, the only
categorical node (position 0) carries payload `cat_threshold[0] = 5`. -/
theorem c2_categorical_payload_witness :
    ∃ (n : BNode) (v : Int), bt2.nodes[0]? = some n ∧
      (rec2a.cat_threshold.getD [])[0]? = some v ∧ n.catValue = some v :=
  (c2_categorical_payload_is_single_element 1 rec2a bt2 rfl).1 0 0 rfl

theorem structLines_cons_tree (schema : List (String × ParsedValue))
    (st : List (String × PValue)) (l : String) (rest : List String)
    (ht : l = "tree") :
    structLines schema st (l :: rest) = structLines schema st rest := by
  simp only [structLines, if_pos ht]

theorem structLines_cons_kv (schema : List (String × ParsedValue))
    (st : List (String × PValue)) (l : String) (rest : List String)
    (k v : String) (ht : ¬l = "tree") (hsplit : strSplitOn l '=' = [k, v]) :
    structLines schema st (l :: rest) =
      match alookup schema k with
      | none => structLines schema st rest
      | some pv =>
        match coerceValue pv v with
        | .error e => .error e
        | .ok val => structLines schema (dinsert st k val) rest := by
  simp only [structLines, if_neg ht, hsplit]

theorem structLines_cons_eq (schema : List (String × ParsedValue))
    (st : List (String × PValue)) (x : String) (rest1 rest2 : List String)
    (hcong : ∀ st', structLines schema st' rest1 = structLines schema st' rest2) :
    structLines schema st (x :: rest1) = structLines schema st (x :: rest2) := by
  simp only [structLines]
  by_cases ht : x = "tree"
  · rw [if_pos ht, if_pos ht]
    exact hcong st
  · rw [if_neg ht, if_neg ht]
    cases hx2 : strSplitOn x '=' with
    | nil => rfl
    | cons k1 r1 =>
      cases r1 with
      | nil => rfl
      | cons v1 r2 =>
        cases r2 with
        | cons z r3 => rfl
        | nil =>
          show (match alookup schema k1 with
              | none => structLines schema st rest1
              | some pv =>
                match coerceValue pv v1 with
                | .error e => .error e
                | .ok val => structLines schema (dinsert st k1 val) rest1) =
            (match alookup schema k1 with
              | none => structLines schema st rest2
              | some pv =>
                match coerceValue pv v1 with
                | .error e => .error e
                | .ok val => structLines schema (dinsert st k1 val) rest2)
          cases alookup schema k1 with
          | none => exact hcong st
          | some pv =>
            show (match coerceValue pv v1 with
                | .error e => Except.error e
                | .ok val => structLines schema (dinsert st k1 val) rest1) =
              (match coerceValue pv v1 with
                | .error e => Except.error e
                | .ok val => structLines schema (dinsert st k1 val) rest2)
            cases coerceValue pv v1 with
            | error e => rfl
            | ok val => exact hcong (dinsert st k1 val)

theorem structLines_skip_unknown (schema : List (String × ParsedValue))
    (st : List (String × PValue)) (xs ys : List String) (l k v : String)
    (hsplit : strSplitOn l '=' = [k, v])
    (hunknown : alookup schema k = none) :
    structLines schema st (xs ++ l :: ys) = structLines schema st (xs ++ ys) := by
  induction xs generalizing st with
  | nil =>
    simp only [List.nil_append]
    by_cases ht : l = "tree"
    · exact structLines_cons_tree schema st l ys ht
    · rw [structLines_cons_kv schema st l ys k v ht hsplit, hunknown]
  | cons x xs ih =>
    simp only [List.cons_append]
    exact structLines_cons_eq schema st x _ _ (fun st' => ih st')

/-- C8 (amended).  A line that splits on `'='` into exactly a key and a value,
with the key not in the schema, is skipped and has no effect: decoding the
block equals decoding the block without that line. -/
theorem c8_unknown_key_line_no_effect (schema : List (String × ParsedValue))
    (xs ys : List String) (l k v : String)
    (hsplit : strSplitOn l '=' = [k, v])
    (hunknown : alookup schema k = none) :
    structFromBlock (xs ++ l :: ys) schema = structFromBlock (xs ++ ys) schema := by
  unfold structFromBlock
  rw [structLines_skip_unknown schema [] xs ys l k v hsplit hunknown]

/-- C8 (amended), witness: adding `"foo=bar"` (unknown key `"foo"`) to a tree
block leaves its decoding unchanged. -/
theorem c8_unknown_key_line_no_effect_witness :
    structFromBlock (tailBlock ++ [benignLine]) TREE_PARSED_KEYS
      = structFromBlock (tailBlock ++ []) TREE_PARSED_KEYS :=
  c8_unknown_key_line_no_effect TREE_PARSED_KEYS tailBlock [] benignLine
    "foo" "bar" rfl rfl

/-! ### Lemmas about the block stream -/

theorem takeWhile_append_block {α : Type} (p : α → Bool) (b : List α) (c : α)
    (r : List α) (hb : ∀ x ∈ b, p x = true) (hc : p c = false) :
    (b ++ c :: r).takeWhile p = b := by
  induction b with
  | nil => simp [List.takeWhile_cons, hc]
  | cons x xs ih =>
    have hx := hb x (List.mem_cons_self x xs)
    simp [List.takeWhile_cons, hx,
      ih (fun y hy => hb y (List.mem_cons_of_mem x hy))]

theorem dropWhile_append_block {α : Type} (p : α → Bool) (b : List α) (c : α)
    (r : List α) (hb : ∀ x ∈ b, p x = true) (hc : p c = false) :
    (b ++ c :: r).dropWhile p = c :: r := by
  induction b with
  | nil => simp [List.dropWhile_cons, hc]
  | cons x xs ih =>
    have hx := hb x (List.mem_cons_self x xs)
    simp [List.dropWhile_cons, hx,
      ih (fun y hy => hb y (List.mem_cons_of_mem x hy))]

theorem getNextBlock_blank (T : List String) :
    getNextBlock ("" :: T) = getNextBlock T := by
  simp [getNextBlock, List.dropWhile_cons]

theorem getNextBlock_block (b : List String) (r : List String) (hb : b ≠ [])
    (hnb : ∀ l ∈ b, l ≠ "") :
    getNextBlock (b ++ "" :: r) = (b.map strTrim, "" :: r) := by
  simp only [getNextBlock]
  have hall : ∀ l ∈ b, (decide (l ≠ "")) = true :=
    fun l hl => decide_eq_true (hnb l hl)
  have hdw : (b ++ "" :: r).dropWhile (· == "") = b ++ "" :: r := by
    cases b with
    | nil => exact absurd rfl hb
    | cons x b2 =>
      have hx : (x == "") = false :=
        beq_eq_false_iff_ne.mpr (hnb x (List.mem_cons_self x b2))
      simp [List.dropWhile_cons, hx]
  rw [hdw, takeWhile_append_block _ b "" r hall (by decide),
    dropWhile_append_block _ b "" r hall (by decide)]

theorem parseTreesFuel_eof (f : Nat) (ls : List String)
    (hgb : (getNextBlock ls).1 = []) : parseTreesFuel (f + 1) ls = .ok [] := by
  simp only [parseTreesFuel, hgb]

theorem parseTreesFuel_marker (f : Nat) (ls : List String) (junk : List String)
    (hgb : (getNextBlock ls).1 = "end of trees" :: junk) :
    parseTreesFuel (f + 1) ls = .ok [] := by
  simp only [parseTreesFuel, hgb]
  rw [if_neg (show ¬(leadsWith "Tree=" "end of trees" = true) from by decide)]
  simp

theorem parseTreesFuel_tree (f : Nat) (ls : List String) (l0 : String)
    (bt : List String) (hgb : (getNextBlock ls).1 = l0 :: bt)
    (hl0 : leadsWith "Tree=" l0 = true) :
    parseTreesFuel (f + 1) ls =
      (do
        let t ← parseTree (l0 :: bt)
        let ts ← parseTreesFuel f (getNextBlock ls).2
        Except.ok (t :: ts)) := by
  simp only [parseTreesFuel, hgb]
  rw [if_pos hl0]

theorem parseTreesFuel_blank (f : Nat) (T : List String) :
    parseTreesFuel (f + 1) ("" :: T) = parseTreesFuel (f + 1) T := by
  simp only [parseTreesFuel, getNextBlock_blank]

theorem mapE_ok_cons {α β : Type} (f : α → Except Err β) (x : α) (xs : List α)
    (ts : List β) (h : mapE f (x :: xs) = .ok ts) :
    ∃ t ts', ts = t :: ts' ∧ f x = .ok t ∧ mapE f xs = .ok ts' := by
  simp only [mapE] at h
  cases hx : f x with
  | error e => rw [hx, err_bind] at h; exact Except.noConfusion h
  | ok t =>
    rw [hx, ok_bind] at h
    cases hxs : mapE f xs with
    | error e => rw [hxs, err_bind] at h; exact Except.noConfusion h
    | ok ts' =>
      rw [hxs, ok_bind] at h
      cases h
      exact ⟨t, ts', rfl, rfl, rfl⟩

theorem joinBlocks_length_ge (bs : List (List String)) :
    bs.length ≤ (joinBlocks bs).length := by
  induction bs with
  | nil => simp [joinBlocks]
  | cons b bs ih =>
    simp only [joinBlocks, List.length_append, List.length_cons]
    omega

theorem parseTreesFuel_joinBlocks (bs : List (List String))
    (ts : List TreeStruct) (tail : List String)
    (hwf : ∀ b ∈ bs, b ≠ [] ∧ ∀ l ∈ b, l ≠ "" ∧ strTrim l = l)
    (hfirst : ∀ b ∈ bs, ∃ l0 bt, b = l0 :: bt ∧ leadsWith "Tree=" l0 = true)
    (hdec : mapE parseTree bs = .ok ts)
    (htail : tail = [] ∨ ∃ r, tail = "end of trees" :: r)
    (fuel : Nat) (hfuel : bs.length < fuel) :
    parseTreesFuel fuel (joinBlocks bs ++ tail) = .ok ts := by
  induction bs generalizing ts fuel with
  | nil =>
    simp only [mapE] at hdec
    cases hdec
    cases fuel with
    | zero => omega
    | succ f =>
      simp only [joinBlocks, List.nil_append]
      rcases htail with h0 | ⟨r, hr⟩
      · subst h0
        exact parseTreesFuel_eof f [] (by rfl)
      · subst hr
        refine parseTreesFuel_marker f _ ((r.takeWhile (· ≠ "")).map strTrim) ?_
        unfold getNextBlock
        rw [List.dropWhile_cons]
        simp only [show (("end of trees" : String) == "") = false from by decide,
          Bool.false_eq_true, if_false, List.takeWhile_cons]
        rw [if_pos (by decide)]
        simp only [List.map_cons]
        rw [show strTrim "end of trees" = "end of trees" from by decide]
  | cons b bs ih =>
    obtain ⟨t, ts', hts, hpt, hrest⟩ := mapE_ok_cons _ _ _ _ hdec
    subst hts
    obtain ⟨hbn, hbl⟩ := hwf b (List.mem_cons_self b bs)
    obtain ⟨l0, bt, hbl0, hl0⟩ := hfirst b (List.mem_cons_self b bs)
    cases fuel with
    | zero => omega
    | succ f =>
      have hjoin : joinBlocks (b :: bs) ++ tail
          = b ++ "" :: (joinBlocks bs ++ tail) := by
        simp [joinBlocks, List.append_assoc]
      rw [hjoin]
      have hgb := getNextBlock_block b (joinBlocks bs ++ tail) hbn
        (fun l hl => (hbl l hl).1)
      have hmap : b.map strTrim = b :=
        (List.map_congr_left (fun l hl => (hbl l hl).2)).trans (List.map_id b)
      rw [hmap] at hgb
      rw [parseTreesFuel_tree f _ l0 bt (by rw [hgb, hbl0]) hl0]
      rw [← hbl0, hpt, ok_bind]
      have hrest2 : (getNextBlock (b ++ "" :: (joinBlocks bs ++ tail))).2
          = "" :: (joinBlocks bs ++ tail) := by rw [hgb]
      rw [hrest2]
      cases f with
      | zero =>
        simp only [List.length_cons] at hfuel
        omega
      | succ f2 =>
        rw [parseTreesFuel_blank f2 (joinBlocks bs ++ tail)]
        rw [ih ts' (fun b2 h2 => hwf b2 (List.mem_cons_of_mem b h2))
          (fun b2 h2 => hfirst b2 (List.mem_cons_of_mem b h2)) hrest
          (f2 + 1) (by simp only [List.length_cons] at hfuel; omega)]
        rw [ok_bind]

/-- C4 (amended).  The tree-block loop decodes every well-formed `"Tree="`
block, stops at an `"end of trees"` block, and also stops without error when
the blocks simply run out at end-of-file (the whole parse may still fail
later, e.g. at trailer extraction, but the loop itself raises nothing at
EOF). -/
theorem c4_tree_block_loop_behaviour (bs : List (List String))
    (ts : List TreeStruct) (rest : List String)
    (hwf : ∀ b ∈ bs, b ≠ [] ∧ ∀ l ∈ b, l ≠ "" ∧ strTrim l = l)
    (hfirst : ∀ b ∈ bs, ∃ l0 bt, b = l0 :: bt ∧ leadsWith "Tree=" l0 = true)
    (hdec : mapE parseTree bs = .ok ts) :
    parseTreesBlocks (joinBlocks bs) = .ok ts ∧
    parseTreesBlocks (joinBlocks bs ++ "end of trees" :: rest) = .ok ts := by
  constructor
  · unfold parseTreesBlocks
    have hj := parseTreesFuel_joinBlocks bs ts [] hwf hfirst hdec (Or.inl rfl)
      ((joinBlocks bs).length + 1)
      (by have := joinBlocks_length_ge bs; omega)
    rw [List.append_nil] at hj
    exact hj
  · unfold parseTreesBlocks
    exact parseTreesFuel_joinBlocks bs ts ("end of trees" :: rest) hwf hfirst
      hdec (Or.inr ⟨rest, rfl⟩)
      ((joinBlocks bs ++ "end of trees" :: rest).length + 1)
      (by have := joinBlocks_length_ge bs
          simp only [List.length_append, List.length_cons]
          omega)

/-- C4 (amended), witness: a single well-formed tree block decodes to
`[rec4]` both when followed by the marker block and when the stream simply
ends. -/
theorem c4_tree_block_loop_witness :
    parseTreesBlocks (joinBlocks [tailBlock]) = .ok [rec4] ∧
    parseTreesBlocks (joinBlocks [tailBlock] ++ "end of trees" :: ["junk"])
      = .ok [rec4] :=
  c4_tree_block_loop_behaviour [tailBlock] [rec4] ["junk"]
    (by
      intro b hb
      rw [List.mem_singleton] at hb
      subst hb
      exact ⟨by decide, by decide⟩)
    (by
      intro b hb
      rw [List.mem_singleton] at hb
      subst hb
      exact ⟨"Tree=0", _, rfl, by decide⟩)
    rfl

/-! ### No stage of the forward pass can report fuel exhaustion

`Err.fuelExhausted` is produced only when the fuelled backward scan runs out
of fuel; the lemmas below verify that no other stage can emit it, so that the
termination theorem (C5) pins non-termination down to the scan alone. -/

theorem coerceTok_error_cases (vt : VType) (tok : String) (e : Err)
    (h : coerceTok vt tok = .error e) : e = .coerceFailed := by
  unfold coerceTok at h
  cases vt with
  | int =>
    cases hs : strToInt tok with
    | none => simp only [hs] at h; cases h; rfl
    | some i => simp only [hs] at h; exact Except.noConfusion h
  | float =>
    by_cases hf : isFloatTok tok = true
    · rw [if_pos hf] at h
      exact Except.noConfusion h
    · rw [if_neg hf] at h
      cases h
      rfl
  | str => exact Except.noConfusion h

theorem coerceValue_error_cases (pv : ParsedValue) (v : String) (e : Err)
    (h : coerceValue pv v = .error e) : e = .coerceFailed := by
  unfold coerceValue at h
  by_cases hl : pv.is_list = true
  · rw [if_pos hl] at h
    by_cases hv : v = ""
    · rw [if_pos hv] at h
      exact Except.noConfusion h
    · rw [if_neg hv] at h
      cases hty : pv.type with
      | int =>
        simp only [hty] at h
        cases hm : mapE (fun t => match strToInt t with
            | some i => Except.ok i
            | none => Except.error Err.coerceFailed) (strSplitOn v ' ') with
        | error e1 =>
          rw [hm, err_bind] at h
          cases h
          obtain ⟨x, _, hfx⟩ := mapE_error_mem _ _ _ hm
          revert hfx
          cases strToInt x with
          | none => intro hfx; cases hfx; rfl
          | some i => intro hfx; exact Except.noConfusion hfx
        | ok l => rw [hm, ok_bind] at h; exact Except.noConfusion h
      | float =>
        simp only [hty] at h
        by_cases ha : (strSplitOn v ' ').all isFloatTok = true
        · rw [if_pos ha] at h
          exact Except.noConfusion h
        · rw [if_neg ha] at h
          cases h
          rfl
      | str =>
        simp only [hty] at h
        exact Except.noConfusion h
  · rw [if_neg hl] at h
    exact coerceTok_error_cases _ _ _ h

theorem structLines_error_cases (schema : List (String × ParsedValue)) :
    ∀ (st : List (String × PValue)) (lines : List String) (e : Err),
    structLines schema st lines = .error e →
    e = .lineSplit ∨ e = .coerceFailed := by
  intro st lines
  induction lines generalizing st with
  | nil =>
    intro e h
    simp only [structLines] at h
    exact Except.noConfusion h
  | cons l rest ih =>
    intro e h
    simp only [structLines] at h
    by_cases ht : l = "tree"
    · rw [if_pos ht] at h
      exact ih st e h
    · rw [if_neg ht] at h
      cases hx : strSplitOn l '=' with
      | nil => simp only [hx] at h; cases h; exact Or.inl rfl
      | cons k1 r1 =>
        cases r1 with
        | nil => simp only [hx] at h; cases h; exact Or.inl rfl
        | cons v1 r2 =>
          cases r2 with
          | cons z r3 => simp only [hx] at h; cases h; exact Or.inl rfl
          | nil =>
            simp only [hx] at h
            cases hk : alookup schema k1 with
            | none =>
              simp only [hk] at h
              exact ih st e h
            | some pv =>
              simp only [hk] at h
              cases hc : coerceValue pv v1 with
              | error e1 =>
                simp only [hc] at h
                cases h
                exact Or.inr (coerceValue_error_cases _ _ _ hc)
              | ok val =>
                simp only [hc] at h
                exact ih (dinsert st k1 val) e h

theorem structMissing_error_cases (st : List (String × PValue))
    (schema : List (String × ParsedValue)) (e : Err)
    (h : structMissing st schema = .error e) : e = .missingKey := by
  induction schema generalizing st with
  | nil => simp only [structMissing] at h; exact Except.noConfusion h
  | cons p rest ih =>
    obtain ⟨k, pv⟩ := p
    simp only [structMissing] at h
    cases hk : alookup st k with
    | some v => simp only [hk] at h; exact ih st h
    | none =>
      simp only [hk] at h
      by_cases hn : pv.null_ok = true
      · rw [if_pos hn] at h
        exact ih (dinsert st k .vNull) h
      · rw [if_neg hn] at h
        cases h
        rfl

theorem structFromBlock_error_cases (lines : List String)
    (schema : List (String × ParsedValue)) (e : Err)
    (h : structFromBlock lines schema = .error e) :
    e = .lineSplit ∨ e = .coerceFailed ∨ e = .missingKey := by
  unfold structFromBlock at h
  cases hsl : structLines schema [] lines with
  | error e1 =>
    rw [hsl, err_bind] at h
    cases h
    rcases structLines_error_cases schema [] lines _ hsl with h1 | h1
    · exact Or.inl h1
    · exact Or.inr (Or.inl h1)
  | ok st =>
    rw [hsl, ok_bind] at h
    exact Or.inr (Or.inr (structMissing_error_cases _ _ _ h))

theorem getInt_ne_fuel (st : List (String × PValue)) (k : String) :
    getInt st k ≠ .error .fuelExhausted := by
  unfold getInt
  split <;> simp

theorem getStr_ne_fuel (st : List (String × PValue)) (k : String) :
    getStr st k ≠ .error .fuelExhausted := by
  unfold getStr
  split <;> simp

theorem getStrList_ne_fuel (st : List (String × PValue)) (k : String) :
    getStrList st k ≠ .error .fuelExhausted := by
  unfold getStrList
  split <;> simp

theorem getIntList_ne_fuel (st : List (String × PValue)) (k : String) :
    getIntList st k ≠ .error .fuelExhausted := by
  unfold getIntList
  split <;> simp

theorem getFloatList_ne_fuel (st : List (String × PValue)) (k : String) :
    getFloatList st k ≠ .error .fuelExhausted := by
  unfold getFloatList
  split <;> simp

theorem getIntListOpt_ne_fuel (st : List (String × PValue)) (k : String) :
    getIntListOpt st k ≠ .error .fuelExhausted := by
  unfold getIntListOpt
  split <;> simp

theorem generalInfo_ofStruct_ne_fuel (st : List (String × PValue)) :
    GeneralInfo.ofStruct st ≠ .error .fuelExhausted := by
  unfold GeneralInfo.ofStruct
  intro h
  cases h1 : getInt st "max_feature_idx" with
  | error e =>
    rw [h1, err_bind] at h
    cases h
    exact getInt_ne_fuel st "max_feature_idx" h1
  | ok mfi =>
    rw [h1, ok_bind] at h
    cases h2 : getStr st "version" with
    | error e =>
      rw [h2, err_bind] at h
      cases h
      exact getStr_ne_fuel st "version" h2
    | ok v =>
      rw [h2, ok_bind] at h
      cases h3 : getStrList st "feature_infos" with
      | error e =>
        rw [h3, err_bind] at h
        cases h
        exact getStrList_ne_fuel st "feature_infos" h3
      | ok fi =>
        rw [h3, ok_bind] at h
        cases h4 : getStrList st "objective" with
        | error e =>
          rw [h4, err_bind] at h
          cases h
          exact getStrList_ne_fuel st "objective" h4
        | ok ob =>
          rw [h4, ok_bind] at h
          exact Except.noConfusion h

theorem bind_ne_fuel {α β : Type} (x : Except Err α) (f : α → Except Err β)
    (hx : x ≠ .error .fuelExhausted) (hf : ∀ a, f a ≠ .error .fuelExhausted) :
    (x >>= f) ≠ .error .fuelExhausted := by
  cases x with
  | error e =>
    rw [err_bind]
    intro hc
    cases hc
    exact hx rfl
  | ok a => rw [ok_bind]; exact hf a

theorem structFromBlock_ne_fuel (lines : List String)
    (schema : List (String × ParsedValue)) :
    structFromBlock lines schema ≠ .error .fuelExhausted := by
  intro h
  rcases structFromBlock_error_cases _ _ _ h with h1 | h1 | h1 <;>
    exact Err.noConfusion h1

theorem treeStruct_ofStruct_ne_fuel (st : List (String × PValue)) :
    TreeStruct.ofStruct st ≠ .error .fuelExhausted := by
  unfold TreeStruct.ofStruct
  refine bind_ne_fuel _ _ (getInt_ne_fuel _ _) (fun tr => ?_)
  refine bind_ne_fuel _ _ (getInt_ne_fuel _ _) (fun nl => ?_)
  refine bind_ne_fuel _ _ (getInt_ne_fuel _ _) (fun nc => ?_)
  refine bind_ne_fuel _ _ (getIntList_ne_fuel _ _) (fun sf => ?_)
  refine bind_ne_fuel _ _ (getFloatList_ne_fuel _ _) (fun th => ?_)
  refine bind_ne_fuel _ _ (getIntList_ne_fuel _ _) (fun dt => ?_)
  refine bind_ne_fuel _ _ (getIntList_ne_fuel _ _) (fun lc => ?_)
  refine bind_ne_fuel _ _ (getIntList_ne_fuel _ _) (fun rc => ?_)
  refine bind_ne_fuel _ _ (getFloatList_ne_fuel _ _) (fun lv => ?_)
  refine bind_ne_fuel _ _ (getIntListOpt_ne_fuel _ _) (fun ct => ?_)
  refine bind_ne_fuel _ _ (getIntListOpt_ne_fuel _ _) (fun cb => ?_)
  simp

theorem parseTree_ne_fuel (lines : List String) :
    parseTree lines ≠ .error .fuelExhausted := by
  unfold parseTree
  exact bind_ne_fuel _ _ (structFromBlock_ne_fuel _ _)
    (fun st => treeStruct_ofStruct_ne_fuel st)

theorem parseTreesFuel_ne_fuel :
    ∀ (fuel : Nat) (ls : List String), ls.length < fuel →
    parseTreesFuel fuel ls ≠ .error .fuelExhausted := by
  intro fuel
  induction fuel with
  | zero => intro ls h; omega
  | succ f ih =>
    intro ls hlen
    cases hgb : (getNextBlock ls).1 with
    | nil => rw [parseTreesFuel_eof f ls hgb]; simp
    | cons l0 bt =>
      by_cases hl0 : leadsWith "Tree=" l0 = true
      · rw [parseTreesFuel_tree f ls l0 bt hgb hl0]
        refine bind_ne_fuel _ _ (parseTree_ne_fuel _) (fun t => ?_)
        refine bind_ne_fuel _ _ ?_ (fun ts => by simp)
        apply ih
        have hr := getNextBlock_rest_length_lt ls
          (by rw [hgb]; exact List.cons_ne_nil _ _)
        omega
      · by_cases hm : l0 = "end of trees"
        · rw [parseTreesFuel_marker f ls bt
            (hgb.trans (by rw [hm]))]
          simp
        · simp only [parseTreesFuel, hgb]
          rw [if_neg hl0, if_neg hm]
          simp

theorem parseTreesBlocks_ne_fuel (ls : List String) :
    parseTreesBlocks ls ≠ .error .fuelExhausted :=
  parseTreesFuel_ne_fuel (ls.length + 1) ls (by omega)

/-! ### Termination of the backward scan -/

theorem tailChunk_full (cs : List Char) (off : Int)
    (h : (cs.length : Int) ≤ -off) : tailChunk cs off = cs := by
  unfold tailChunk
  have : cs.length - off.natAbs = 0 := by omega
  rw [this, List.drop_zero]

theorem scanFuel_isSome (cs : List Char) (h2 : 2 ≤ (pyLines cs).length) :
    ∀ (f : Nat) (off : Int), off < 0 → (cs.length : Int) ≤ -off * 2 ^ f →
      (scanFuel cs (f + 1) off).isSome = true := by
  intro f
  induction f with
  | zero =>
    intro off hoff hle
    simp only [scanFuel]
    have hcl : (cs.length : Int) ≤ -(clampOff cs off) := by
      unfold clampOff
      split <;> omega
    rw [tailChunk_full cs _ hcl, if_pos h2]
    rfl
  | succ f ih =>
    intro off hoff hle
    simp only [scanFuel]
    by_cases hbig : 2 ≤ (pyLines (tailChunk cs (clampOff cs off))).length
    · rw [if_pos hbig]
      rfl
    · rw [if_neg hbig]
      by_cases hclamp : off < -(cs.length : Int)
      · exfalso
        apply hbig
        rw [show clampOff cs off = -(cs.length : Int) from by
          unfold clampOff; rw [if_pos hclamp]]
        rw [tailChunk_full cs _ (by omega)]
        exact h2
      · have hco : clampOff cs off = off := by
          unfold clampOff
          rw [if_neg hclamp]
        rw [hco]
        refine ih (off * 2) (by omega) ?_
        have hp : -(off * 2) * 2 ^ f = -off * 2 ^ (f + 1) := by ring
        rw [hp]
        exact hle

theorem recoveredLines_isSome (cs : List Char)
    (h2 : 2 ≤ (pyLines cs).length) : (recoveredLines cs).isSome = true := by
  unfold recoveredLines
  have hlen : cs.length + 2 = (cs.length + 1) + 1 := rfl
  rw [hlen]
  refine scanFuel_isSome cs h2 (cs.length + 1) _ (by decide) ?_
  have hnat : cs.length ≤ pandasKey.length * 2 ^ (cs.length + 1) := by
    have k1 : cs.length < 2 ^ cs.length := Nat.lt_two_pow cs.length
    have k2 : 2 ^ cs.length ≤ 2 ^ (cs.length + 1) :=
      Nat.pow_le_pow_right (by omega) (by omega)
    have k3 : 1 * 2 ^ (cs.length + 1) ≤ pandasKey.length * 2 ^ (cs.length + 1) :=
      Nat.mul_le_mul_right _ (by decide)
    omega
  have : (-(-((pandasKey.length : Nat) : Int))) = ((pandasKey.length : Nat) : Int) := by
    ring
  rw [this]
  exact_mod_cast hnat

theorem parsePandas_ne_fuel (cs : List Char)
    (hrec : (recoveredLines cs).isSome = true) :
    parsePandasCategorical cs ≠ .error .fuelExhausted := by
  cases h : recoveredLines cs with
  | none => rw [h] at hrec; exact absurd hrec (by simp)
  | some ls =>
    simp only [parsePandasCategorical, h]
    cases hr : ls.reverse with
    | nil => simp
    | cons l1 r1 =>
      cases r1 with
      | nil => simp
      | cons l2 r2 => split <;> split <;> ((try split) <;> simp)

/-! ### The header block guarantees two readable lines -/

theorem block_lines_countP (cs : List Char)
    (h : 2 ≤ (getNextBlock (fileLines cs)).1.length) :
    2 ≤ (fileLines cs).countP (fun x => decide (x ≠ "")) := by
  simp only [getNextBlock, List.length_map] at h
  have hsub : List.Sublist
      (((fileLines cs).dropWhile (· == "")).takeWhile (· ≠ ""))
      (fileLines cs) :=
    (List.takeWhile_sublist _).trans (List.dropWhile_sublist _)
  have hall : ((((fileLines cs).dropWhile (· == "")).takeWhile (· ≠ "")).countP
        (fun x => decide (x ≠ "")))
      = (((fileLines cs).dropWhile (· == "")).takeWhile (· ≠ "")).length := by
    rw [List.countP_eq_length]
    intro a ha
    simpa using List.mem_takeWhile_imp ha
  have hle2 : ((((fileLines cs).dropWhile (· == "")).takeWhile (· ≠ "")).countP
        (fun x => decide (x ≠ "")))
      ≤ (fileLines cs).countP (fun x => decide (x ≠ "")) :=
    hsub.countP_le _
  omega

theorem countP_pyLines (cs : List Char)
    (h : 2 ≤ (fileLines cs).countP (fun x => decide (x ≠ ""))) :
    2 ≤ (pyLines cs).length := by
  unfold pyLines
  by_cases hl : (fileLines cs).getLast? = some ""
  · rw [if_pos hl]
    have hne : fileLines cs ≠ [] := by
      intro hc
      rw [hc] at hl
      exact Option.noConfusion hl
    have hsplit : (fileLines cs).dropLast ++ [(fileLines cs).getLast hne]
        = fileLines cs := List.dropLast_concat_getLast hne
    have hlast : (fileLines cs).getLast hne = "" := by
      have := List.getLast?_eq_getLast (fileLines cs) hne
      rw [hl] at this
      exact (Option.some.inj this).symm
    have hcount : (fileLines cs).countP (fun x => decide (x ≠ ""))
        = ((fileLines cs).dropLast).countP (fun x => decide (x ≠ "")) := by
      conv_lhs => rw [← hsplit]
      rw [List.countP_append, hlast]
      simp
    rw [hcount] at h
    have hle3 : ((fileLines cs).dropLast).countP (fun x => decide (x ≠ ""))
        ≤ ((fileLines cs).dropLast).length := List.countP_le_length _
    omega
  · rw [if_neg hl]
    have := List.countP_le_length (p := fun x => decide (x ≠ ""))
      (l := fileLines cs)
    omega

/-- C5.  `parse_model_file` terminates on every input file: the fuelled model
never reports fuel exhaustion, because the backward scan — the only unbounded
loop — is reached only after the header assertion has established at least
two readable lines, at which point the doubling offset is proven to reach the
whole file.  (Standalone, on a file with fewer than two lines, the scan loop
would not terminate — see `scanDiverges` below — but the parse never reaches
it on such files.) -/
theorem c5_parse_always_terminates (cs : List Char) (gio : Bool) :
    parseModelFile cs gio ≠ .error .fuelExhausted := by
  cases h0 : (getNextBlock (fileLines cs)).1[0]? with
  | none => simp [parseModelFile, h0]
  | some l0 =>
    cases h1 : (getNextBlock (fileLines cs)).1[1]? with
    | none => simp [parseModelFile, h0, h1]
    | some l1 =>
      simp only [parseModelFile, h0, h1]
      by_cases hc : l0 = "tree" ∧ leadsWith "version=" l1 = true
      case neg => rw [if_neg hc]; simp
      rw [if_pos hc]
      refine bind_ne_fuel _ _ (structFromBlock_ne_fuel _ _) (fun giSt => ?_)
      refine bind_ne_fuel _ _ (generalInfo_ofStruct_ne_fuel _) (fun gi => ?_)
      cases gio with
      | true => simp
      | false =>
        refine bind_ne_fuel _ _ (parseTreesBlocks_ne_fuel _) (fun ts => ?_)
        refine bind_ne_fuel _ _ ?_ (fun pc => by simp)
        apply parsePandas_ne_fuel
        apply recoveredLines_isSome
        apply countP_pyLines
        apply block_lines_countP
        have := getElem?_some_lt _ _ _ h1
        omega

theorem scanFuel_nil : ∀ (fuel : Nat) (off : Int), scanFuel [] fuel off = none := by
  intro fuel
  induction fuel with
  | zero => intro off; rfl
  | succ f ih =>
    intro off
    simp only [scanFuel]
    rw [show tailChunk [] (clampOff [] off) = [] from by simp [tailChunk]]
    rw [show pyLines [] = [] from rfl]
    rw [if_neg (by decide)]
    exact ih _

/-- On the empty file, the backward scan of `parse_pandas_categorical` never
recovers two lines and loops forever (the full parse fails at the header
before ever reaching it). -/
theorem scanDiverges_empty_file : scanDiverges [] :=
  fun fuel => scanFuel_nil fuel _

/-- C10.  The full parse (general-info-only flag off) always ends by
extracting the pandas trailer, so whenever neither of the last two recovered
lines starts with `"pandas_categorical:"`, the whole parse fails — no matter
how well-formed the header and tree blocks are. -/
theorem c10_missing_pandas_marker_fails (cs : List Char) (ls : List String)
    (l1 l2 : String) (tl : List String)
    (hrec : recoveredLines cs = some ls)
    (hrev : ls.reverse = l1 :: l2 :: tl)
    (h1 : leadsWith pandasKey (strTrim l1) = false)
    (h2 : leadsWith pandasKey (strTrim l2) = false) :
    (parseModelFile cs false).isOk = false := by
  have hpp : parsePandasCategorical cs = .error .illFormatted := by
    simp only [parsePandasCategorical, hrec, hrev, h1, h2]
    simp [h2]
  cases h0 : (getNextBlock (fileLines cs)).1[0]? with
  | none =>
    simp only [parseModelFile, h0]
    rfl
  | some l0 =>
    cases h1' : (getNextBlock (fileLines cs)).1[1]? with
    | none =>
      simp only [parseModelFile, h0, h1']
      rfl
    | some l1' =>
      simp only [parseModelFile, h0, h1']
      by_cases hc : l0 = "tree" ∧ leadsWith "version=" l1' = true
      case neg =>
        rw [if_neg hc]
        rfl
      rw [if_pos hc]
      cases hgi : structFromBlock (getNextBlock (fileLines cs)).1 INPUT_PARSED_KEYS with
      | error e =>
        rw [err_bind]
        rfl
      | ok giSt =>
        rw [ok_bind]
        cases hof : GeneralInfo.ofStruct giSt with
        | error e =>
          rw [err_bind]
          rfl
        | ok gi =>
          rw [ok_bind, if_neg Bool.false_ne_true]
          cases hts : parseTreesBlocks (getNextBlock (fileLines cs)).2 with
          | error e =>
            rw [err_bind]
            rfl
          | ok ts =>
            rw [ok_bind, hpp, err_bind]
            rfl

/-- C10, witness: `noPandasFile` has a valid header and tree section but
ends in `"something"`/`"other"`; its parse fails. -/
theorem c10_missing_pandas_marker_fails_witness :
    (parseModelFile noPandasFile false).isOk = false :=
  c10_missing_pandas_marker_fails noPandasFile ["ees", "something", "other"]
    "other" "something" ["ees"] rfl rfl rfl rfl

/-- C1.  The forest builder takes `nodes[0]` unconditionally
(`Tree(tree_struct["Tree"], nodes[0], n_args)`), so a record with zero
internal nodes — which the spec requires to be representable, with its sole
`Leaf` becoming the root — fails with an index error instead of being built:
the code contradicts the spec's explicit degenerate-tree requirement. -/
theorem c1_degenerate_tree_root_index_fails :
    degenRecord.decision_type.length = 0 ∧ degenRecord.leaf_value.length = 1 ∧
    buildTree 1 degenRecord = .error .rootIndexError :=
  ⟨rfl, rfl, rfl⟩

/-- C2, counterexample.  Two records that differ only in `cat_boundaries`
build to identical trees, while the spec's boundary-sliced payloads differ:
the attached payload cannot be the `cat_boundaries`-delimited slice.  (The
builder reads `tree_struct["cat_threshold"][i]` — a single element — and
never consults `cat_boundaries`.) -/
theorem c2_cat_boundaries_do_not_affect_build :
    rec2b = { rec2a with cat_boundaries := some [0, 1] } ∧
    (buildTree 1 rec2a).isOk = true ∧
    buildTree 1 rec2a = buildTree 1 rec2b ∧
    catSliceSpec rec2a 0 ≠ catSliceSpec rec2b 0 :=
  ⟨rfl, rfl, rfl, by decide⟩

/-- C4, counterexample.  A model file with no `"end of trees"` line anywhere
(its single tree block runs to end-of-file) parses successfully: reaching EOF
exits the tree-block loop without any error, contrary to the claim that such
a file fails with a `FormatError`. -/
theorem c4_missing_end_marker_parse_succeeds :
    ((fileLines noMarkerFile).all (fun l => !(strTrim l == "end of trees"))) = true
    ∧ (parseModelFile noMarkerFile false).map (fun r => r.trees.length) = .ok 1 :=
  ⟨by decide, rfl⟩

/-- C7, counterexample.  A record whose `split_feature` is strictly longer
than its `decision_type` (2 vs 1 entries) builds successfully: `zip`
truncates the longer arrays, and the `len(nodes) == n_nodes` assertion
compares against `len(decision_type)`, so this mismatch is not fatal. -/
theorem c7_longer_lists_build_succeeds :
    rec7.split_feature.length ≠ rec7.decision_type.length ∧
    (buildTree 1 rec7).isOk = true :=
  ⟨by decide, rfl⟩

/-- C8, counterexample.  A line whose key (`"foo"`) is not in the schema but
whose value contains a further `'='` makes the whole block fail
(`key, value = line.split("=")` unpacks ≠ 2 parts), although the same block
without that line decodes fine: an unknown-key line is not always skipped
without error. -/
theorem c8_unknown_key_line_can_fail :
    (strSplitOn strayLine '=').head? = some "foo" ∧
    alookup TREE_PARSED_KEYS "foo" = none ∧
    structFromBlock (tailBlock ++ [strayLine]) TREE_PARSED_KEYS = .error .lineSplit ∧
    (structFromBlock tailBlock TREE_PARSED_KEYS).isOk = true :=
  ⟨rfl, rfl, rfl, rfl⟩

/-- C9.  A file with a valid header block, an `"end of trees"` marker and the
trailing sections but zero tree blocks parses to a forest with an empty tree
sequence (and `n_args = max_feature_idx + 1 = 2`) without failure. -/
theorem c9_zero_trees_parses_to_empty_forest :
    parseToForest zeroTreesFile = .ok ⟨[], 2⟩ :=
  rfl

end Lleaves
